import Mathlib

/-!
Shallow embedding of the Connect4 repository (`src/Connect4/game.py` and
`src/bot.py`) and verification of the frozen claims about it.

Conventions of the embedding:
* Python's mutable `Connect4` object becomes the immutable structure `Game`;
  mutating methods return the new state (paired with their boolean result
  where the Python method returns one).
* Python `int` columns are `Int` (negative columns are representable, as the
  code guards against them); rows produced by `get_next_open_row` are `Nat`.
* Python's unbounded integers hashed with `^` and `*` become `Nat` with
  `^^^` and `*` (Python never masks to 64 bits, so `Nat` is exact).
* Search scores are Python floats that only ever hold integers and the two
  float infinities; they are modeled as `Int` with sentinels `INF`, `-INF`
  chosen far beyond every score the engine can produce, so every comparison
  the search performs agrees with the float semantics.
* The bot's random Zobrist table is a parameter (`zobrist`, `player_key`)
  of the `Bot` structure, as the Python constructor draws it at random.
-/

namespace Connect4

/-- `Player` enum from `game.py`. -/
inductive Player where
  | RED
  | YELLOW
  | NONE
deriving DecidableEq, Repr

/-- The `value` of each enum member (`RED = 1`, `YELLOW = 2`, `NONE = 0`). -/
def Player.value : Player → Nat
  | .RED => 1
  | .YELLOW => 2
  | .NONE => 0

/-- Board constants from the `Connect4` class. -/
def ROWS : Nat := 6

def COLS : Nat := 7

def WIN_LENGTH : Nat := 4

/-- A board is the Python list-of-lists `board[row][col]`, row 0 on top. -/
abbrev Board := List (List Player)

/-- Read `board[row][col]` (all reads performed by the code are in range;
out-of-range reads default to `NONE`). -/
def cellAt (b : Board) (r c : Nat) : Player := (b.getD r []).getD c Player.NONE

/-- Write `board[row][col] = p` (out-of-range writes are no-ops, which the
code never performs). -/
def setCell (b : Board) (r c : Nat) (p : Player) : Board :=
  b.set r ((b.getD r []).set c p)

/-- The mutable state of the Python `Connect4` class (named `Game` because
`Connect4` is this namespace). -/
structure Game where
  board : Board
  current_player : Player
  game_over : Bool
  winner : Player
  move_history : List (Nat × Nat × Player)
deriving DecidableEq, Repr

/-- `Connect4.__init__`: empty board, RED to move. -/
def init_game : Game :=
  { board := List.replicate ROWS (List.replicate COLS Player.NONE)
    current_player := Player.RED
    game_over := false
    winner := Player.NONE
    move_history := [] }

/-- `is_valid_move`: the column exists and its top cell is empty. -/
def is_valid_move (g : Game) (col : Int) : Bool :=
  if col < 0 ∨ (COLS : Int) ≤ col then false
  else cellAt g.board 0 col.toNat = Player.NONE

/-- `get_next_open_row`: first empty row scanning from the bottom
(`range(ROWS - 1, -1, -1)`), `None` when the move is invalid. -/
def get_next_open_row (g : Game) (col : Int) : Option Nat :=
  if is_valid_move g col = false then none
  else (List.range ROWS).reverse.find? fun r =>
    cellAt g.board r col.toNat = Player.NONE

/-- One direction scan of `_check_win`: counts consecutive cells equal to
`p` at offsets `i, i+1, ...` (up to `fuel` more steps) along `(dr, dc)`,
stopping at the first mismatch or board edge. -/
def runLen (b : Board) (p : Player) (row col dr dc : Int) : Int → Nat → Nat
  | _, 0 => 0
  | i, fuel + 1 =>
    let r := row + dr * i
    let c := col + dc * i
    if 0 ≤ r ∧ r < (ROWS : Int) ∧ 0 ≤ c ∧ c < (COLS : Int) ∧
        cellAt b r.toNat c.toNat = p then
      1 + runLen b p row col dr dc (i + 1) fuel
    else 0

/-- `_check_win`: the piece just placed at `(row, col)` completes a run of
at least `WIN_LENGTH` along one of the four axes. -/
def check_win (b : Board) (row col : Nat) : Bool :=
  let player := cellAt b row col
  [((0 : Int), (1 : Int)), (1, 0), (1, 1), (1, -1)].any fun d =>
    let count := 1 + runLen b player row col d.1 d.2 1 (WIN_LENGTH - 1)
      + runLen b player row col (-d.1) (-d.2) 1 (WIN_LENGTH - 1)
    WIN_LENGTH ≤ count

/-- `_is_board_full`: every top cell is occupied. -/
def is_board_full (b : Board) : Bool :=
  (List.range COLS).all fun col => ¬ cellAt b 0 col = Player.NONE

/-- `make_move`: returns `(True, new state)` on success, `(False, unchanged
state)` when the game is over, the column is invalid, or no row is open. -/
def make_move (g : Game) (col : Int) : Bool × Game :=
  if g.game_over then (false, g)
  else if is_valid_move g col = false then (false, g)
  else match get_next_open_row g col with
    | none => (false, g)
    | some row =>
      let b := setCell g.board row col.toNat g.current_player
      let hist := g.move_history ++ [(row, col.toNat, g.current_player)]
      if check_win b row col.toNat then
        (true, { board := b, current_player := g.current_player,
                 game_over := true, winner := g.current_player,
                 move_history := hist })
      else if is_board_full b then
        (true, { board := b, current_player := g.current_player,
                 game_over := true, winner := Player.NONE,
                 move_history := hist })
      else
        (true, { board := b,
                 current_player :=
                   if g.current_player = Player.RED then Player.YELLOW
                   else Player.RED,
                 game_over := g.game_over, winner := g.winner,
                 move_history := hist })

/-- `get_valid_moves`: all columns whose move is valid, ascending. -/
def get_valid_moves (g : Game) : List Int :=
  ((List.range COLS).map Int.ofNat).filter fun col => is_valid_move g col

/-- `undo_move`: pops the move log, clears the cell, restores the mover as
side to move, clears the terminal flags. `(False, unchanged)` on empty log. -/
def undo_move (g : Game) : Bool × Game :=
  match g.move_history.getLast? with
  | none => (false, g)
  | some (row, col, player) =>
    (true, { board := setCell g.board row col Player.NONE,
             current_player := player, game_over := false,
             winner := Player.NONE,
             move_history := g.move_history.dropLast })

example : (make_move init_game 3).1 = true := by decide
example : cellAt (make_move init_game 3).2.board 5 3 = Player.RED := by decide
example : (undo_move (make_move init_game 3).2).2 = init_game := by decide
example : (make_move init_game 7).1 = false := by decide
example : (make_move init_game (-1)).1 = false := by decide

/-! ## The bot (`src/bot.py`) -/

/-- `BoundType` enum from `bot.py`. -/
inductive BoundType where
  | EXACT
  | LOWER_BOUND
  | UPPER_BOUND
deriving DecidableEq, Repr

/-- `TranspositionEntry` from `bot.py` (named `TTEntry` for brevity). -/
structure TTEntry where
  score : Int
  depth : Nat
  bound : BoundType
  best_move : Option Int
deriving DecidableEq, Repr

/-- The `Bot`'s configuration.  `zobrist r c i` models
`zobrist_table[row][col][player_index]` and `player_key` the side-to-move
key; both are drawn at random by the Python constructor, so they are
parameters here.  `depth` is a natural: the repository only builds bots
with positive depth (default 6). -/
structure Bot where
  depth : Nat
  player : Player
  search_type : String
  zobrist : Nat → Nat → Nat → Nat
  player_key : Nat

/-- `self.opponent` as computed in `Bot.__init__`. -/
def Bot.opponent (bt : Bot) : Player :=
  if bt.player = Player.YELLOW then Player.RED else Player.YELLOW

/-- The bot's three per-decision caches (`transposition_table`,
`valid_moves_cache`, `evaluation_cache`), modeled as association lists
whose most recent insertion wins — matching dict overwrite semantics. -/
structure SearchState where
  tt : List (Nat × TTEntry)
  valid_moves_cache : List (Nat × List Int)
  evaluation_cache : List (Nat × Int)
deriving DecidableEq, Repr

/-- Store `tt[phash] = e` (dict assignment). -/
def tt_store (S : SearchState) (phash : Nat) (e : TTEntry) : SearchState :=
  { S with tt := (phash, e) :: S.tt }

/-- The cell positions of `_compute_hash`'s nested loops, row-major. -/
def cell_positions : List (Nat × Nat) :=
  (List.range ROWS).flatMap fun r => (List.range COLS).map fun c => (r, c)

/-- The XOR of all per-cell keys in `_compute_hash`. -/
def board_hash (bt : Bot) (b : Board) : Nat :=
  cell_positions.foldl
    (fun h rc => h ^^^ bt.zobrist rc.1 rc.2 (cellAt b rc.1 rc.2).value) 0

/-- `_compute_hash`: XOR of every cell's key (empty cells contribute their
`NONE` key) plus `player_key * current_player.value`. -/
def compute_hash (bt : Bot) (g : Game) : Nat :=
  board_hash bt g.board ^^^ bt.player_key * g.current_player.value

/-- `_update_hash`: toggle the old and new occupant keys of one cell. -/
def update_hash (bt : Bot) (hash_value : Nat) (row col : Nat)
    (old_player new_player : Player) : Nat :=
  hash_value ^^^ bt.zobrist row col old_player.value
    ^^^ bt.zobrist row col new_player.value

/-- `_update_hash_for_move`: one cell change plus the side-to-move change. -/
def update_hash_for_move (bt : Bot) (hash_value : Nat) (row col : Nat)
    (old_player new_player old_current_player new_current_player : Player) :
    Nat :=
  update_hash bt hash_value row col old_player new_player
    ^^^ bt.player_key * old_current_player.value
    ^^^ bt.player_key * new_current_player.value

/-- The fixed center-out preference `[3, 2, 4, 1, 5, 0, 6]`. -/
def center_order : List Int := [3, 2, 4, 1, 5, 0, 6]

/-- The sort key of `_order_moves` (`center_order.index(m)` when present,
999 otherwise). -/
def move_key (m : Int) : Nat :=
  if m ∈ center_order then center_order.indexOf m else 999

/-- Insert into a key-sorted list, after existing equal keys (stable). -/
def insert_by_key (key : Int → Nat) (x : Int) : List Int → List Int
  | [] => [x]
  | y :: ys =>
    if key x < key y then x :: y :: ys else y :: insert_by_key key x ys

/-- Stable sort by key, modeling Python's stable `list.sort(key=...)`.
(The engine only sorts duplicate-free subsets of `0..6`, on which every
key-correct sort agrees, as all keys are distinct.) -/
def sort_by_key (key : Int → Nat) : List Int → List Int
  | [] => []
  | x :: xs => insert_by_key key x (sort_by_key key xs)

/-- The transposition-table consultation at the top of `_order_moves`:
the stored best move, provided it is still legal. -/
def tt_best_move (tt : List (Nat × TTEntry)) (phash : Nat)
    (valid_moves : List Int) : Option Int :=
  match tt.lookup phash with
  | some entry =>
    match entry.best_move with
    | some b => if b ∈ valid_moves then some b else none
    | none => none
  | none => none

/-- The reordering performed by `_order_moves` once the table best move is
known: best move first, remaining moves center-out. -/
def order_moves_core (best_move : Option Int) (valid_moves : List Int) :
    List Int :=
  let remaining_moves :=
    match best_move with
    | some b => valid_moves.filter fun m => m ≠ b
    | none => valid_moves
  let sorted := sort_by_key move_key remaining_moves
  match best_move with
  | some b => b :: sorted
  | none => sorted

/-- `_order_moves`. -/
def order_moves (tt : List (Nat × TTEntry)) (valid_moves : List Int)
    (phash : Nat) : List Int :=
  order_moves_core (tt_best_move tt phash valid_moves) valid_moves

/-- `_evaluate_line`: count the bot's pieces, the opponent's pieces and
empties over the 4 cells starting at `(row, col)` along `(dr, dc)`, then
score `10 ** bot_count`, `-(10 ** opponent_count)` or 0. -/
def evaluate_line (bt : Bot) (g : Game) (row col dr dc : Int) : Int :=
  let counts := (List.range WIN_LENGTH).foldl
    (fun (acc : Nat × Nat × Nat) i =>
      let r := row + dr * i
      let c := col + dc * i
      let cell := cellAt g.board r.toNat c.toNat
      if cell = bt.player then (acc.1 + 1, acc.2.1, acc.2.2)
      else if cell = bt.opponent then (acc.1, acc.2.1 + 1, acc.2.2)
      else (acc.1, acc.2.1, acc.2.2 + 1)) (0, 0, 0)
  if 0 < counts.1 ∧ counts.2.1 = 0 then (10 : Int) ^ counts.1
  else if 0 < counts.2.1 ∧ counts.1 = 0 then -((10 : Int) ^ counts.2.1)
  else 0

/-- `_evaluate_position`: accumulate `_evaluate_line` over the nested
row/column loops, guarded exactly as in the source. -/
def evaluate_position (bt : Bot) (g : Game) : Int :=
  ((List.range ROWS).map fun row =>
    ((List.range COLS).map fun col =>
      (if col ≤ COLS - WIN_LENGTH then
        evaluate_line bt g row col 0 1 else 0) +
      ((if row ≤ ROWS - WIN_LENGTH then
        evaluate_line bt g row col 1 0 else 0) +
       ((if row ≤ ROWS - WIN_LENGTH ∧ col ≤ COLS - WIN_LENGTH then
         evaluate_line bt g row col 1 1 else 0) +
        (if row ≤ ROWS - WIN_LENGTH ∧ WIN_LENGTH - 1 ≤ col then
          evaluate_line bt g row col 1 (-1) else 0)))).sum).sum

example :
    evaluate_position
      { depth := 1, player := Player.YELLOW, search_type := "fixed",
        zobrist := fun _ _ _ => 0, player_key := 0 }
      (make_move init_game 3).2 = -70 := by decide

/-! ## The search (`_minimax_with_hash` and the two drivers)

Scores live in `Int`; `INF` models `float('inf')`.  Every concrete score
the engine produces is bounded by `1000 + depth` or by the evaluation
heuristic (at most `69 * 10^4`), so with `INF = 10^9` every comparison
performed by the search agrees with the float semantics whenever the
configured depth is below `10^9 - 10^6`, which covers every claim. -/

def INF : Int := 1000000000

/-- The transposition-table consultation at the top of `_minimax_with_hash`:
either an immediate return (`Sum.inl score`) or the (possibly narrowed)
`(alpha, beta)` window to continue with. -/
def tt_probe (tt : List (Nat × TTEntry)) (phash : Nat) (depth : Nat)
    (alpha beta : Int) : Sum Int (Int × Int) :=
  match tt.lookup phash with
  | some entry =>
    if depth ≤ entry.depth then
      match entry.bound with
      | BoundType.EXACT => Sum.inl entry.score
      | BoundType.LOWER_BOUND =>
        if beta ≤ entry.score then Sum.inl entry.score
        else Sum.inr (max alpha entry.score, beta)
      | BoundType.UPPER_BOUND =>
        if entry.score ≤ alpha then Sum.inl entry.score
        else Sum.inr (alpha, min beta entry.score)
    else Sum.inr (alpha, beta)
  | none => Sum.inr (alpha, beta)

/-- The bound classification written at the end of the maximizing branch
(`bot.py` lines 482-487): compares `max_eval` with `original_alpha` and
with `beta`, which the maximizing loop never modifies. -/
def store_bound_max (max_eval original_alpha beta : Int) : BoundType :=
  if max_eval ≤ original_alpha then BoundType.UPPER_BOUND
  else if beta ≤ max_eval then BoundType.LOWER_BOUND
  else BoundType.EXACT

/-- The bound classification written at the end of the minimizing branch
(`bot.py` lines 550-555): compares `min_eval` with `original_alpha` and
with `beta` — but the minimizing loop lowers `beta`, and `min_eval` is
defined as that final `beta`, so the second comparison is against the
achieved value itself. -/
def store_bound_min (min_eval original_alpha beta : Int) : BoundType :=
  if min_eval ≤ original_alpha then BoundType.UPPER_BOUND
  else if beta ≤ min_eval then BoundType.LOWER_BOUND
  else BoundType.EXACT

/-- The Principal Variation Search block of the maximizing branch: full
window for the first move, null window `(alpha, alpha + 1)` otherwise with
a full re-search when the probe lands strictly inside the window. -/
def pvs_max (recurse : Game → SearchState → Int → Int → Nat →
      Int × Game × SearchState)
    (g1 : Game) (S : SearchState) (alpha beta : Int) (new_hash : Nat)
    (first_move : Bool) : Int × Game × SearchState :=
  if first_move then recurse g1 S alpha beta new_hash
  else
    match recurse g1 S alpha (alpha + 1) new_hash with
    | (s0, ga, Sa) =>
      if alpha < s0 ∧ s0 < beta then recurse ga Sa alpha beta new_hash
      else (s0, ga, Sa)

/-- The Principal Variation Search block of the minimizing branch: null
window `(beta - 1, beta)` for non-first moves. -/
def pvs_min (recurse : Game → SearchState → Int → Int → Nat →
      Int × Game × SearchState)
    (g1 : Game) (S : SearchState) (alpha beta : Int) (new_hash : Nat)
    (first_move : Bool) : Int × Game × SearchState :=
  if first_move then recurse g1 S alpha beta new_hash
  else
    match recurse g1 S (beta - 1) beta new_hash with
    | (s0, ga, Sa) =>
      if s0 < beta ∧ alpha < s0 then recurse ga Sa alpha beta new_hash
      else (s0, ga, Sa)

/-- The undo / alpha update / `break` test at the end of one maximizing
loop iteration: `Sum.inl` is the `break` (to the node epilogue), `Sum.inr`
continues the loop with the restored game and updated `alpha`/best move. -/
def max_step (move eval_score : Int) (g2 : Game) (S2 : SearchState)
    (alpha beta : Int) (best_move : Option Int) :
    Sum (Int × Option Int × Game × SearchState)
      (Game × SearchState × Int × Option Int) :=
  if beta ≤ (if alpha < eval_score then eval_score else alpha) then
    Sum.inl ((if alpha < eval_score then eval_score else alpha),
      (if alpha < eval_score then some move else best_move),
      (undo_move g2).2, S2)
  else
    Sum.inr ((undo_move g2).2, S2,
      (if alpha < eval_score then eval_score else alpha),
      (if alpha < eval_score then some move else best_move))

/-- The undo / beta update / `break` test at the end of one minimizing
loop iteration. -/
def min_step (move eval_score : Int) (g2 : Game) (S2 : SearchState)
    (alpha beta : Int) (best_move : Option Int) :
    Sum (Int × Option Int × Game × SearchState)
      (Game × SearchState × Int × Option Int) :=
  if (if eval_score < beta then eval_score else beta) ≤ alpha then
    Sum.inl ((if eval_score < beta then eval_score else beta),
      (if eval_score < beta then some move else best_move),
      (undo_move g2).2, S2)
  else
    Sum.inr ((undo_move g2).2, S2,
      (if eval_score < beta then eval_score else beta),
      (if eval_score < beta then some move else best_move))

/-- The maximizing move loop of `_minimax_with_hash`.  `recurse` is the
depth-reduced minimizing search; `Sum.inl` is the early immediate-win
return (entry already stored), `Sum.inr` carries the final
`(alpha, best_move)` with the threaded game and caches to the node's
store-and-return epilogue (reached both on loop exhaustion and on an
alpha-beta `break`). -/
def max_loop (bt : Bot)
    (recurse : Game → SearchState → Int → Int → Nat →
      Int × Game × SearchState)
    (depth : Nat) (phash : Nat) :
    List Int → Game → SearchState → Int → Int → Bool → Option Int →
      Sum (Int × Game × SearchState)
        (Int × Option Int × Game × SearchState)
  | [], g, S, alpha, _beta, _first_move, best_move =>
    Sum.inr (alpha, best_move, g, S)
  | move :: rest, g, S, alpha, beta, first_move, best_move =>
    match get_next_open_row g move with
    | none => max_loop bt recurse depth phash rest g S alpha beta
        first_move best_move
    | some row =>
      if (make_move g move).2.game_over = true ∧
          (make_move g move).2.winner = bt.player then
        Sum.inl (1000 + (depth : Int), (undo_move (make_move g move).2).2,
          tt_store S phash
            ⟨1000 + (depth : Int), depth, BoundType.EXACT, some move⟩)
      else
        match pvs_max recurse (make_move g move).2 S alpha beta
            (update_hash_for_move bt phash row move.toNat
              Player.NONE bt.player bt.player bt.opponent) first_move with
        | (eval_score, g2, S2) =>
          match max_step move eval_score g2 S2 alpha beta best_move with
          | Sum.inl r => Sum.inr r
          | Sum.inr (g3, S3, alpha1, best_move1) =>
            max_loop bt recurse depth phash rest g3 S3 alpha1 beta
              false best_move1

/-- The minimizing move loop of `_minimax_with_hash`, mirror image of
`max_loop` (null window `(beta - 1, beta)`, early immediate-loss return,
`beta`/`best_move` updates, `break` when `beta ≤ alpha`). -/
def min_loop (bt : Bot)
    (recurse : Game → SearchState → Int → Int → Nat →
      Int × Game × SearchState)
    (depth : Nat) (phash : Nat) :
    List Int → Game → SearchState → Int → Int → Bool → Option Int →
      Sum (Int × Game × SearchState)
        (Int × Option Int × Game × SearchState)
  | [], g, S, _alpha, beta, _first_move, best_move =>
    Sum.inr (beta, best_move, g, S)
  | move :: rest, g, S, alpha, beta, first_move, best_move =>
    match get_next_open_row g move with
    | none => min_loop bt recurse depth phash rest g S alpha beta
        first_move best_move
    | some row =>
      if (make_move g move).2.game_over = true ∧
          (make_move g move).2.winner = bt.opponent then
        Sum.inl (-1000 - (depth : Int), (undo_move (make_move g move).2).2,
          tt_store S phash
            ⟨-1000 - (depth : Int), depth, BoundType.EXACT, some move⟩)
      else
        match pvs_min recurse (make_move g move).2 S alpha beta
            (update_hash_for_move bt phash row move.toNat
              Player.NONE bt.opponent bt.opponent bt.player) first_move with
        | (eval_score, g2, S2) =>
          match min_step move eval_score g2 S2 alpha beta best_move with
          | Sum.inl r => Sum.inr r
          | Sum.inr (g3, S3, beta1, best_move1) =>
            min_loop bt recurse depth phash rest g3 S3 alpha beta1
              false best_move1

/-- The evaluation-cache consultation of the `depth == 0` leaf case. -/
def eval_cache_get (bt : Bot) (g : Game) (S : SearchState) (phash : Nat) :
    Int × SearchState :=
  match S.evaluation_cache.lookup phash with
  | some score => (score, S)
  | none =>
    let score := evaluate_position bt g
    (score,
     { S with evaluation_cache := (phash, score) :: S.evaluation_cache })

/-- The valid-moves-cache consultation of the internal case. -/
def vm_cache_get (g : Game) (S : SearchState) (phash : Nat) :
    List Int × SearchState :=
  match S.valid_moves_cache.lookup phash with
  | some valid_moves => (valid_moves, S)
  | none =>
    let valid_moves := get_valid_moves g
    (valid_moves,
     { S with valid_moves_cache := (phash, valid_moves) :: S.valid_moves_cache })

/-- The internal (`depth > 0`, non-terminal, cache-consulted) case of
`_minimax_with_hash`: the no-legal-move draw return, the maximizing and the
minimizing loop with their store-and-return epilogues.  `recF` is the
depth-reduced recursive search and `depth1` the current depth. -/
def minimax_node (bt : Bot)
    (recF : Game → SearchState → Bool → Int → Int → Nat →
      Int × Game × SearchState)
    (depth1 : Nat) (g : Game) (S1 : SearchState) (valid_moves : List Int)
    (maximizing : Bool) (alpha beta : Int) (phash : Nat) :
    Int × Game × SearchState :=
  if order_moves S1.tt valid_moves phash = [] then
    (0, g, tt_store S1 phash ⟨0, depth1, BoundType.EXACT, none⟩)
  else
    if maximizing then
      match max_loop bt
          (fun ga Sa a b h => recF ga Sa false a b h)
          depth1 phash (order_moves S1.tt valid_moves phash) g S1
          alpha beta true none with
      | Sum.inl r => r
      | Sum.inr (max_eval, best_move, g2, S2) =>
        (max_eval, g2, tt_store S2 phash
          ⟨max_eval, depth1,
           store_bound_max max_eval alpha beta, best_move⟩)
    else
      match min_loop bt
          (fun ga Sa a b h => recF ga Sa true a b h)
          depth1 phash (order_moves S1.tt valid_moves phash) g S1
          alpha beta true none with
      | Sum.inl r => r
      | Sum.inr (min_eval, best_move, g2, S2) =>
        (min_eval, g2, tt_store S2 phash
          ⟨min_eval, depth1,
           store_bound_min min_eval alpha min_eval, best_move⟩)

/-- `_minimax_with_hash`.  Result is `(score, game, caches)`: the Python
function mutates `game` and the caches in place and returns the score; the
embedding threads them.  Recursion is structural on `depth` (the code
treats `depth == 0` as a leaf before enumerating moves, so the internal
case only occurs at `depth + 1`). -/
def minimax_with_hash (bt : Bot) : Nat → Game → SearchState → Bool →
    Int → Int → Nat → Int × Game × SearchState
  | depth, g, S, maximizing, alpha0, beta0, phash =>
    match tt_probe S.tt phash depth alpha0 beta0 with
    | Sum.inl score => (score, g, S)
    | Sum.inr (alpha, beta) =>
      if g.game_over then
        let score : Int :=
          if g.winner = bt.player then 1000 + (depth : Int)
          else if g.winner = bt.opponent then -1000 - (depth : Int)
          else 0
        (score, g, tt_store S phash ⟨score, depth, BoundType.EXACT, none⟩)
      else
        match depth with
        | 0 =>
          match eval_cache_get bt g S phash with
          | (score, S1) =>
            (score, g, tt_store S1 phash ⟨score, 0, BoundType.EXACT, none⟩)
        | d + 1 =>
          match vm_cache_get g S phash with
          | (valid_moves, S1) =>
            minimax_node bt
              (fun ga Sa mx a b h => minimax_with_hash bt d ga Sa mx a b h)
              (d + 1) g S1 valid_moves maximizing alpha beta phash

/-- The root move loop shared (textually) by `_get_best_move_iterative`
(one pass, searching children at `current_depth - 1`) and
`_get_best_move_fixed` (searching children at `self.depth - 1`):
`Sum.inl` is the `return move` on an immediate win (after the undo),
`Sum.inr` carries `(best_value, best_move)` with the threaded state. -/
def root_loop (bt : Bot) (search_depth : Nat) (position_hash : Nat) :
    List Int → Game → SearchState → Int → Option Int →
      Sum (Int × Game × SearchState)
        (Int × Option Int × Game × SearchState)
  | [], g, S, best_value, best_move => Sum.inr (best_value, best_move, g, S)
  | move :: rest, g, S, best_value, best_move =>
    match get_next_open_row g move with
    | none => root_loop bt search_depth position_hash rest g S
        best_value best_move
    | some row =>
      if (make_move g move).2.game_over = true ∧
          (make_move g move).2.winner = bt.player then
        Sum.inl ((move : Int), (undo_move (make_move g move).2).2, S)
      else
        match minimax_with_hash bt search_depth (make_move g move).2 S false
            (-INF) INF
            (update_hash_for_move bt position_hash row move.toNat
              Player.NONE bt.player bt.player bt.opponent) with
        | (value, g2, S2) =>
          if best_value < value then
            root_loop bt search_depth position_hash rest (undo_move g2).2 S2
              value (some move)
          else
            root_loop bt search_depth position_hash rest (undo_move g2).2 S2
              best_value best_move

/-- The `for current_depth in range(1, self.depth + 1)` loop of
`_get_best_move_iterative`; each pass reorders the root moves against the
table filled by the previous pass and keeps the best move of the deepest
completed pass. -/
def iter_loop (bt : Bot) (position_hash : Nat) (valid_moves : List Int) :
    List Nat → Game → SearchState → Option Int →
      Option Int × Game × SearchState
  | [], g, S, best_move => (best_move, g, S)
  | current_depth :: rest, g, S, best_move =>
    match root_loop bt (current_depth - 1) position_hash
        (order_moves S.tt valid_moves position_hash) g S (-INF) none with
    | Sum.inl r => (some r.1, r.2.1, r.2.2)
    | Sum.inr (_best_value, current_best_move, g1, S1) =>
      iter_loop bt position_hash valid_moves rest g1 S1
        (match current_best_move with
         | some m => some m
         | none => best_move)

/-- `_get_best_move_iterative`. -/
def get_best_move_iterative (bt : Bot) (g : Game) (S : SearchState)
    (valid_moves : List Int) : Option Int × Game × SearchState :=
  iter_loop bt (compute_hash bt g) valid_moves
    (List.range' 1 bt.depth) g S none

/-- `_get_best_move_fixed`. -/
def get_best_move_fixed (bt : Bot) (g : Game) (S : SearchState)
    (valid_moves : List Int) : Option Int × Game × SearchState :=
  match root_loop bt (bt.depth - 1) (compute_hash bt g)
      (order_moves S.tt valid_moves (compute_hash bt g)) g S (-INF) none with
  | Sum.inl r => (some r.1, r.2.1, r.2.2)
  | Sum.inr (_best_value, best_move, g1, S1) => (best_move, g1, S1)

/-- `get_best_move`: `None` on a terminal position or without legal moves;
otherwise clears the three caches and dispatches on `search_type`. -/
def get_best_move (bt : Bot) (g : Game) (S : SearchState) :
    Option Int × Game × SearchState :=
  if g.game_over then (none, g, S)
  else
    if get_valid_moves g = [] then (none, g, S)
    else
      if bt.search_type = "iterative" then
        get_best_move_iterative bt g ⟨[], [], []⟩ (get_valid_moves g)
      else get_best_move_fixed bt g ⟨[], [], []⟩ (get_valid_moves g)

/-- A bot with an injective Zobrist assignment (2 bits per cell, the
side-to-move key above them), used for concrete evaluations. -/
def test_bot (player : Player) (depth : Nat) (search_type : String) : Bot :=
  { depth := depth, player := player, search_type := search_type,
    zobrist := fun r c p => p <<< (2 * (COLS * r + c)),
    player_key := 1 <<< (2 * (ROWS * COLS)) }

/-- A bot whose Zobrist keys are all zero (a possible random draw),
making every position hash to 0: convenient for concrete runs whose
claims do not depend on hash values. -/
def zero_bot (player : Player) (depth : Nat) (search_type : String) : Bot :=
  { depth := depth, player := player, search_type := search_type,
    zobrist := fun _ _ _ => 0, player_key := 0 }

/-- The classic column-pair filling of columns 0-5 (36 legal moves, no
four-in-a-row anywhere), leaving column 6 as the only legal move. -/
def pair_moves : List Int := [0, 1, 0, 1, 0, 1, 1, 0, 1, 0, 1, 0]

def play (g : Game) (moves : List Int) : Game :=
  moves.foldl (fun g1 c => (make_move g1 c).2) g

/-- The position with columns 0-5 full and RED to move. -/
def g36 : Game :=
  play init_game
    (pair_moves ++ pair_moves.map (· + 2) ++ pair_moves.map (· + 4))

set_option maxRecDepth 4000 in
example : g36.game_over = false := by decide

set_option maxRecDepth 4000 in
example : get_valid_moves g36 = [6] := by decide

/-- A depth-1 minimizing search of `g36` (a single child, column 6):
the run used to refute the C4 classification claim. -/
def c4_result : Int × Game × SearchState :=
  minimax_with_hash (zero_bot Player.YELLOW 1 "fixed") 1 g36
    ⟨[], [], []⟩ false (-INF) INF 0

set_option maxRecDepth 10000 in
set_option maxHeartbeats 1000000 in
/-- C4 counterexample: a completed minimizing internal node with original
window `(-INF, INF)` achieving the strictly interior value `-10` stores a
`LOWER_BOUND` entry where the claim calls for `Exact`: the code compares
the achieved value against the loop-updated `beta`, which equals the
achieved value itself. -/
theorem c4_counterexample :
    c4_result.2.2.tt.lookup 0 =
      some ⟨-10, 1, BoundType.LOWER_BOUND, some 6⟩ ∧
    (-INF : Int) < -10 ∧ (-10 : Int) < INF :=
  ⟨by decide, by decide, by decide⟩

/-- C4 (amended): with `(alpha0, beta0)` the window in effect when the
move loop starts, the maximizing branch classifies exactly as the claim
states (its `beta` is never modified); the minimizing branch compares
against the final `beta`, which equals the achieved value, so it stores
`UPPER_BOUND` when the value is at most `alpha0` and otherwise always
`LOWER_BOUND`, never `EXACT`. -/
theorem c4_store_bound (v alpha0 beta0 : Int) :
    store_bound_max v alpha0 beta0 =
      (if v ≤ alpha0 then BoundType.UPPER_BOUND
       else if beta0 ≤ v then BoundType.LOWER_BOUND
       else BoundType.EXACT) ∧
    store_bound_min v alpha0 v =
      (if v ≤ alpha0 then BoundType.UPPER_BOUND
       else BoundType.LOWER_BOUND) ∧
    store_bound_min v alpha0 v ≠ BoundType.EXACT := by
  refine ⟨rfl, ?_, ?_⟩
  · unfold store_bound_min
    by_cases h : v ≤ alpha0
    · rw [if_pos h, if_pos h]
    · rw [if_neg h, if_neg h, if_pos (le_refl v)]
  · unfold store_bound_min
    by_cases h : v ≤ alpha0
    · rw [if_pos h]
      intro hc
      cases hc
    · rw [if_neg h, if_pos (le_refl v)]
      intro hc
      cases hc

/-! ## List helpers -/

theorem getD_set_same {α : Type} : ∀ (l : List α) (i : Nat) (a d : α),
    i < l.length → (l.set i a).getD i d = a
  | [], _, _, _, h => absurd h (by simp)
  | _ :: _, 0, _, _, _ => rfl
  | _ :: xs, i + 1, a, d, h =>
    getD_set_same xs i a d (Nat.lt_of_succ_lt_succ h)

theorem getD_set_other {α : Type} : ∀ (l : List α) (i j : Nat) (a d : α),
    i ≠ j → (l.set i a).getD j d = l.getD j d
  | [], _, _, _, _, _ => rfl
  | _ :: _, 0, 0, _, _, h => absurd rfl h
  | _ :: _, 0, _ + 1, _, _, _ => rfl
  | _ :: _, _ + 1, 0, _, _, _ => rfl
  | _ :: xs, i + 1, j + 1, a, d, h =>
    getD_set_other xs i j a d fun e => h (by rw [e])

theorem set_getD_same {α : Type} : ∀ (l : List α) (i : Nat) (d : α),
    i < l.length → l.set i (l.getD i d) = l
  | [], _, _, h => absurd h (by simp)
  | _ :: _, 0, _, _ => rfl
  | x :: xs, i + 1, d, h => by
    show x :: xs.set i (xs.getD i d) = x :: xs
    rw [set_getD_same xs i d (Nat.lt_of_succ_lt_succ h)]

theorem set_oob {α : Type} : ∀ (l : List α) (i : Nat) (a : α),
    l.length ≤ i → l.set i a = l
  | [], _, _, _ => rfl
  | x :: xs, 0, _, h => absurd h (by simp)
  | x :: xs, i + 1, a, h => by
    show x :: xs.set i a = x :: xs
    rw [set_oob xs i a (Nat.le_of_succ_le_succ h)]

/-! ## Board and game lemmas -/

theorem cellAt_setCell_same (b : Board) (r c : Nat) (p : Player)
    (hr : r < b.length) (hc : c < (b.getD r []).length) :
    cellAt (setCell b r c p) r c = p := by
  unfold cellAt setCell
  rw [getD_set_same _ _ _ _ hr, getD_set_same _ _ _ _ hc]

theorem cellAt_setCell_other (b : Board) (r c r2 c2 : Nat) (p : Player)
    (h : ¬(r = r2 ∧ c = c2)) :
    cellAt (setCell b r c p) r2 c2 = cellAt b r2 c2 := by
  unfold cellAt setCell
  by_cases hr : r = r2
  · subst hr
    have hc : c ≠ c2 := fun e => h ⟨rfl, e⟩
    by_cases hlen : r < b.length
    · rw [getD_set_same _ _ _ _ hlen, getD_set_other _ _ _ _ _ hc]
    · rw [set_oob _ _ _ (Nat.le_of_not_lt hlen)]
  · rw [getD_set_other _ _ _ _ _ hr]

theorem setCell_restore (b : Board) (r c : Nat) (p : Player)
    (hc : cellAt b r c = Player.NONE) :
    setCell (setCell b r c p) r c Player.NONE = b := by
  unfold cellAt at hc
  unfold setCell
  by_cases hr : r < b.length
  · rw [getD_set_same _ _ _ _ hr, List.set_set, List.set_set]
    by_cases hcl : c < (b.getD r []).length
    · rw [show ((b.getD r []).set c Player.NONE) =
          ((b.getD r []).set c ((b.getD r []).getD c Player.NONE)) by rw [hc],
        set_getD_same _ _ _ hcl, set_getD_same _ _ _ hr]
    · rw [set_oob _ _ _ (Nat.le_of_not_lt hcl), set_getD_same _ _ _ hr]
  · rw [set_oob _ _ _ (Nat.le_of_not_lt hr), set_oob _ _ _ (Nat.le_of_not_lt hr)]

/-- Validity gives the column bounds and an empty top cell. -/
theorem is_valid_move_spec (g : Game) (col : Int)
    (h : is_valid_move g col = true) :
    0 ≤ col ∧ col < (COLS : Int) ∧ cellAt g.board 0 col.toNat = Player.NONE := by
  unfold is_valid_move at h
  split at h
  · exact absurd h (by simp)
  · next hcond =>
    push_neg at hcond
    exact ⟨hcond.1, hcond.2, of_decide_eq_true h⟩

/-- `find?` over `(range n).reverse` returns a satisfying index that is
maximal below `n`. -/
theorem find?_rev_range_max (p : Nat → Bool) : ∀ (n r : Nat),
    (List.range n).reverse.find? p = some r →
    p r = true ∧ r < n ∧ ∀ r2, r < r2 → r2 < n → p r2 = false
  | 0, r, h => by rw [List.range_zero] at h; simp at h
  | n + 1, r, h => by
    rw [List.range_succ, List.reverse_append] at h
    simp only [List.reverse_cons, List.reverse_nil, List.nil_append,
      List.singleton_append, List.find?] at h
    rcases hp : p n with _ | _
    · rw [hp] at h
      simp only [Bool.false_eq_true, if_neg] at h
      obtain ⟨h1, h2, h3⟩ := find?_rev_range_max p n r h
      refine ⟨h1, Nat.lt_succ_of_lt h2, fun r2 hlt hub => ?_⟩
      rcases Nat.lt_succ_iff_lt_or_eq.mp hub with h4 | h4
      · exact h3 r2 hlt h4
      · rw [h4]; exact hp
    · rw [hp] at h
      simp only [if_pos] at h
      obtain rfl : n = r := by injection h
      exact ⟨hp, Nat.lt_succ_self _, fun r2 hlt hub => absurd hub (by omega)⟩

/-- A successful `get_next_open_row` returns the lowest empty row: the cell
is empty and every row strictly below it is occupied. -/
theorem get_next_open_row_spec (g : Game) (col : Int) (row : Nat)
    (h : get_next_open_row g col = some row) :
    is_valid_move g col = true ∧ row < ROWS ∧
      cellAt g.board row col.toNat = Player.NONE ∧
      ∀ r2, row < r2 → r2 < ROWS → cellAt g.board r2 col.toNat ≠ Player.NONE := by
  unfold get_next_open_row at h
  split at h
  · exact absurd h (by simp)
  · next hval =>
    obtain ⟨h1, h2, h3⟩ := find?_rev_range_max _ _ _ h
    refine ⟨by revert hval; rcases is_valid_move g col with _ | _ <;> simp,
      h2, of_decide_eq_true h1, fun r2 hlt hub => ?_⟩
    have := h3 r2 hlt hub
    simpa using this

/-- A valid move on a live game has an open row. -/
theorem valid_open_row (g : Game) (col : Int)
    (h : is_valid_move g col = true) :
    ∃ row, get_next_open_row g col = some row := by
  unfold get_next_open_row
  split
  · next hcond => rw [h] at hcond; cases hcond
  · rcases hfind : (List.range ROWS).reverse.find?
        (fun r => decide (cellAt g.board r col.toNat = Player.NONE))
        with _ | r
    · have h0 : (0 : Nat) ∈ (List.range ROWS).reverse := by decide
      have := List.find?_eq_none.mp hfind 0 h0
      simp only [decide_eq_true_eq] at this
      exact absurd (is_valid_move_spec g col h).2.2 this
    · exact ⟨r, rfl⟩

/-- Explicit result of a successful `make_move` through open row `row`. -/
def move_result (g : Game) (col : Int) (row : Nat) : Game :=
  let b := setCell g.board row col.toNat g.current_player
  let hist := g.move_history ++ [(row, col.toNat, g.current_player)]
  if check_win b row col.toNat then
    { board := b, current_player := g.current_player, game_over := true,
      winner := g.current_player, move_history := hist }
  else if is_board_full b then
    { board := b, current_player := g.current_player, game_over := true,
      winner := Player.NONE, move_history := hist }
  else
    { board := b,
      current_player :=
        if g.current_player = Player.RED then Player.YELLOW else Player.RED,
      game_over := g.game_over, winner := g.winner, move_history := hist }

/-- Every `make_move` call either fails with the state unchanged (terminal
game or invalid column) or succeeds through some open row. -/
theorem make_move_characterize (g : Game) (col : Int) :
    ((g.game_over = true ∨ is_valid_move g col = false) ∧
      make_move g col = (false, g)) ∨
    ∃ row, g.game_over = false ∧ get_next_open_row g col = some row ∧
      make_move g col = (true, move_result g col row) := by
  rcases hov : g.game_over with _ | _
  · rcases hval : is_valid_move g col with _ | _
    · refine Or.inl ⟨Or.inr rfl, ?_⟩
      unfold make_move
      rw [hov, hval]
      simp
    · obtain ⟨row, hrow⟩ := valid_open_row g col hval
      refine Or.inr ⟨row, rfl, hrow, ?_⟩
      unfold make_move move_result
      rw [hov, hval, hrow]
      simp only [Bool.false_eq_true, Bool.true_eq_false, if_false, if_true,
        ite_true, ite_false]
      split
      · rfl
      · split <;> rfl
  · refine Or.inl ⟨Or.inl rfl, ?_⟩
    unfold make_move
    rw [hov]
    simp

/-- Well-formed board: 6 rows of 7 columns. -/
def BoardWF (b : Board) : Prop :=
  b.length = ROWS ∧ ∀ row ∈ b, row.length = COLS

/-- The state invariant maintained by the game operations: a live game has
no winner, and the board keeps its 6x7 shape. -/
def Inv (g : Game) : Prop :=
  (g.game_over = false → g.winner = Player.NONE) ∧ BoardWF g.board

theorem boardWF_setCell (b : Board) (r c : Nat) (p : Player)
    (h : BoardWF b) : BoardWF (setCell b r c p) := by
  by_cases hr : r < b.length
  · refine ⟨by rw [setCell, List.length_set]; exact h.1, fun row hrow => ?_⟩
    rcases List.mem_or_eq_of_mem_set hrow with h1 | h1
    · exact h.2 row h1
    · subst h1
      rw [List.length_set]
      refine h.2 _ ?_
      rw [List.getD_eq_getElem?_getD, List.getElem?_eq_getElem hr]
      exact List.getElem_mem _
  · rw [setCell, set_oob _ _ _ (Nat.le_of_not_lt hr)]
    exact h

/-- The states reachable from a fresh game by `make_move` and `undo_move`
calls (failed calls leave the state unchanged, so they are included). -/
inductive Reachable : Game → Prop
  | init : Reachable init_game
  | mk_move (g : Game) (c : Int) : Reachable g → Reachable (make_move g c).2
  | undo (g : Game) : Reachable g → Reachable (undo_move g).2

theorem inv_init : Inv init_game :=
  ⟨fun _ => rfl, by unfold BoardWF; exact ⟨by decide, by decide⟩⟩

theorem inv_make (g : Game) (c : Int) (h : Inv g) : Inv (make_move g c).2 := by
  rcases make_move_characterize g c with ⟨_, heq⟩ | ⟨row, hov, _, heq⟩
  · rw [heq]; exact h
  · rw [heq]
    show Inv (move_result g c row)
    have hwf : BoardWF (setCell g.board row c.toNat g.current_player) :=
      boardWF_setCell _ _ _ _ h.2
    simp only [move_result]
    split
    · exact ⟨fun hh => (nomatch hh), hwf⟩
    · split
      · exact ⟨fun hh => (nomatch hh), hwf⟩
      · exact ⟨fun _ => h.1 hov, hwf⟩

theorem inv_undo (g : Game) (h : Inv g) : Inv (undo_move g).2 := by
  unfold undo_move
  rcases hl : g.move_history.getLast? with _ | ⟨row, col, player⟩
  · exact h
  · exact ⟨fun _ => rfl, boardWF_setCell _ _ _ _ h.2⟩

theorem reachable_inv (g : Game) (h : Reachable g) : Inv g := by
  induction h with
  | init => exact inv_init
  | mk_move g c _ ih => exact inv_make g c ih
  | undo g _ ih => exact inv_undo g ih

/-- Playing a list of moves preserves reachability. -/
theorem reachable_play (g : Game) (h : Reachable g) :
    ∀ ms : List Int, Reachable (play g ms)
  | [] => h
  | c :: ms => reachable_play (make_move g c).2 (Reachable.mk_move g c h) ms

theorem move_result_board (g : Game) (col : Int) (row : Nat) :
    (move_result g col row).board =
      setCell g.board row col.toNat g.current_player := by
  simp only [move_result]
  by_cases h1 : check_win (setCell g.board row col.toNat g.current_player)
      row col.toNat = true
  · rw [if_pos h1]
  · rw [if_neg h1]
    by_cases h2 : is_board_full
        (setCell g.board row col.toNat g.current_player) = true
    · rw [if_pos h2]
    · rw [if_neg h2]

theorem move_result_history (g : Game) (col : Int) (row : Nat) :
    (move_result g col row).move_history =
      g.move_history ++ [(row, col.toNat, g.current_player)] := by
  simp only [move_result]
  by_cases h1 : check_win (setCell g.board row col.toNat g.current_player)
      row col.toNat = true
  · rw [if_pos h1]
  · rw [if_neg h1]
    by_cases h2 : is_board_full
        (setCell g.board row col.toNat g.current_player) = true
    · rw [if_pos h2]
    · rw [if_neg h2]

/-- `undo_move` on any state whose board and history have the shape left
by a move restores the pre-move fields. -/
theorem undo_move_of_fields (h : Game) (bd : Board) (cp : Player)
    (row c : Nat) (mh : List (Nat × Nat × Player))
    (hb : h.board = setCell bd row c cp)
    (hh : h.move_history = mh ++ [(row, c, cp)])
    (hcell : cellAt bd row c = Player.NONE) :
    undo_move h = (true, ⟨bd, cp, false, Player.NONE, mh⟩) := by
  unfold undo_move
  rw [hh]
  simp only [List.getLast?_concat, List.dropLast_concat]
  rw [hb, setCell_restore _ _ _ _ hcell]

/-- `undo_move` exactly inverts a successful `make_move` from a state with
no recorded winner. -/
theorem undo_make (g : Game) (col : Int) (hw : g.winner = Player.NONE)
    (hs : (make_move g col).1 = true) :
    undo_move (make_move g col).2 = (true, g) := by
  rcases make_move_characterize g col with ⟨_, heq⟩ | ⟨row, hov, hrow, heq⟩
  · rw [heq] at hs; cases hs
  · obtain ⟨_, _, hcell, _⟩ := get_next_open_row_spec g col row hrow
    rw [heq]
    have := undo_move_of_fields (move_result g col row) g.board
      g.current_player row col.toNat g.move_history
      (move_result_board g col row) (move_result_history g col row) hcell
    rw [this]
    obtain ⟨bd, cp, go, wn, mh⟩ := g
    subst hov
    subst hw
    rfl

/-- C10: in every reachable state, a non-`NONE` winner implies the game is
over; equivalently a live game has winner `NONE` (`reachable_inv`), and
both operations preserve this (`inv_make`, `inv_undo`). -/
theorem c10_winner_invariant (g : Game) (h : Reachable g) :
    g.winner ≠ Player.NONE → g.game_over = true := by
  intro hw
  rcases hov : g.game_over with _ | _
  · exact absurd ((reachable_inv g h).1 hov) hw
  · rfl

/-- C10 witness: the finished game `[0,1,0,1,0,1,0]` has winner RED, and
the theorem yields `game_over = true` there. -/
theorem c10_witness :
    (play init_game [0, 1, 0, 1, 0, 1, 0]).winner ≠ Player.NONE ∧
      (play init_game [0, 1, 0, 1, 0, 1, 0]).game_over = true :=
  ⟨by decide,
   c10_winner_invariant _
     (reachable_play init_game Reachable.init [0, 1, 0, 1, 0, 1, 0])
     (by decide)⟩

/-- C2: from any reachable state, a successful `make_move` followed by
`undo_move` returns `True` and restores the exact prior state (board,
side to move, `game_over`, `winner`, move history). -/
theorem c2_make_undo_roundtrip (g : Game) (c : Int) (hr : Reachable g)
    (hs : (make_move g c).1 = true) :
    undo_move (make_move g c).2 = (true, g) := by
  have hinv := reachable_inv g hr
  have hov : g.game_over = false := by
    rcases make_move_characterize g c with ⟨_, heq⟩ | ⟨_, hov, _, _⟩
    · rw [heq] at hs; cases hs
    · exact hov
  exact undo_make g c (hinv.1 hov) hs

/-- C2 witness: move in column 0 from the initial position. -/
theorem c2_witness :
    (make_move init_game 0).1 = true ∧
      undo_move (make_move init_game 0).2 = (true, init_game) :=
  ⟨by decide, c2_make_undo_roundtrip init_game 0 Reachable.init (by decide)⟩

/-! ## C8: make_move success and failure conditions -/

/-- A full column: every cell of the column is occupied. -/
def col_full (b : Board) (c : Nat) : Prop :=
  ∀ r, r < ROWS → cellAt b r c ≠ Player.NONE

/-- The gravity invariant of the data model: below an occupied cell every
cell of the column is occupied. -/
def Gravity (b : Board) : Prop :=
  ∀ r, r < ROWS → ∀ c, c < COLS → cellAt b r c ≠ Player.NONE →
    ∀ r2, r2 < ROWS → r < r2 → cellAt b r2 c ≠ Player.NONE

theorem is_valid_move_false (g : Game) (col : Int)
    (h : is_valid_move g col = false) :
    col < 0 ∨ (COLS : Int) ≤ col ∨
      (0 ≤ col ∧ col < (COLS : Int) ∧
        cellAt g.board 0 col.toNat ≠ Player.NONE) := by
  unfold is_valid_move at h
  split at h
  · next hc =>
    rcases hc with hc | hc
    · exact Or.inl hc
    · exact Or.inr (Or.inl hc)
  · next hc =>
    push_neg at hc
    exact Or.inr (Or.inr ⟨hc.1, hc.2, of_decide_eq_false h⟩)

/-- C8: `make_move` returns `False` with the state unchanged exactly when
the game is over, the column is out of range, or the column is full (the
code tests only the top cell; under gravity that equals fullness);
otherwise it returns `True` and drops the current player's piece into the
lowest empty row of the column.  (Absence of exceptions is expressed by
`make_move` being a total function of the embedding.) -/
theorem c8_make_move_spec (g : Game) (col : Int) (hg : Gravity g.board) :
    ((make_move g col).1 = false ↔
      (g.game_over = true ∨ col < 0 ∨ (COLS : Int) ≤ col ∨
        col_full g.board col.toNat)) ∧
    ((make_move g col).1 = false → (make_move g col).2 = g) ∧
    ((make_move g col).1 = true →
      ∃ row, row < ROWS ∧ cellAt g.board row col.toNat = Player.NONE ∧
        (∀ r2, row < r2 → r2 < ROWS →
          cellAt g.board r2 col.toNat ≠ Player.NONE) ∧
        (make_move g col).2.board =
          setCell g.board row col.toNat g.current_player) := by
  rcases make_move_characterize g col with ⟨hreason, heq⟩ | ⟨row, hov, hrow, heq⟩
  · refine ⟨⟨fun _ => ?_, fun _ => by rw [heq]⟩,
      fun _ => by rw [heq], fun hcontra => ?_⟩
    · rcases hreason with hreason | hreason
      · exact Or.inl hreason
      · rcases is_valid_move_false g col hreason with hc | hc | ⟨h0, h7, hc⟩
        · exact Or.inr (Or.inl hc)
        · exact Or.inr (Or.inr (Or.inl hc))
        · refine Or.inr (Or.inr (Or.inr fun r hr => ?_))
          have hcol : col.toNat < COLS := by omega
          rcases Nat.eq_zero_or_pos r with rfl | hpos
          · exact hc
          · exact hg 0 (by decide) col.toNat hcol hc r hr hpos
    · rw [heq] at hcontra; cases hcontra
  · obtain ⟨hval, hlt, hcell, hbelow⟩ := get_next_open_row_spec g col row hrow
    obtain ⟨hge, hltc, htop⟩ := is_valid_move_spec g col hval
    constructor
    · constructor
      · intro hfalse
        rw [heq] at hfalse
        cases hfalse
      · intro hr
        rcases hr with hr | hr | hr | hr
        · rw [hov] at hr; cases hr
        · omega
        · omega
        · exact absurd htop (hr 0 (by decide))
    · refine ⟨fun hfalse => ?_, fun _ => ⟨row, hlt, hcell, hbelow, ?_⟩⟩
      · rw [heq] at hfalse; cases hfalse
      · rw [heq]
        exact move_result_board g col row

set_option synthInstance.maxSize 512 in
/-- C8 witness: the initial position satisfies gravity, and the theorem
applies at column 3 there. -/
theorem c8_witness :
    Gravity init_game.board ∧
    (((make_move init_game 3).1 = false ↔
      (init_game.game_over = true ∨ (3 : Int) < 0 ∨ (COLS : Int) ≤ 3 ∨
        col_full init_game.board (3 : Int).toNat)) ∧
    ((make_move init_game 3).1 = false → (make_move init_game 3).2 = init_game) ∧
    ((make_move init_game 3).1 = true →
      ∃ row, row < ROWS ∧
        cellAt init_game.board row (3 : Int).toNat = Player.NONE ∧
        (∀ r2, row < r2 → r2 < ROWS →
          cellAt init_game.board r2 (3 : Int).toNat ≠ Player.NONE) ∧
        (make_move init_game 3).2.board =
          setCell init_game.board row (3 : Int).toNat
            init_game.current_player)) :=
  ⟨by unfold Gravity; decide, c8_make_move_spec init_game 3 (by unfold Gravity; decide)⟩

/-! ## C3: incremental hashing -/

/-- The side-to-move flip as written in `make_move`. -/
def flip_player (p : Player) : Player :=
  if p = Player.RED then Player.YELLOW else Player.RED

theorem xor_shuffle (a b r : Nat) : ((a ^^^ r) ^^^ a) ^^^ b = b ^^^ r := by
  rw [Nat.xor_comm a r, Nat.xor_assoc r a a, Nat.xor_self, Nat.xor_zero,
    Nat.xor_comm r b]

theorem xor_swap_out (a x b : Nat) : (a ^^^ x) ^^^ b = (a ^^^ b) ^^^ x := by
  rw [Nat.xor_assoc, Nat.xor_comm x b, ← Nat.xor_assoc]

theorem xor_update_cancel (B zN zP kc kf : Nat) :
    (((B ^^^ kc ^^^ zN) ^^^ zP) ^^^ kc) ^^^ kf = ((B ^^^ zN) ^^^ zP) ^^^ kf := by
  rw [xor_swap_out B kc zN, xor_swap_out (B ^^^ zN) kc zP,
    Nat.xor_assoc ((B ^^^ zN) ^^^ zP) kc kc, Nat.xor_self, Nat.xor_zero]

theorem foldl_xor_eq (f : Nat × Nat → Nat) :
    ∀ (l : List (Nat × Nat)) (a : Nat),
      l.foldl (fun h rc => h ^^^ f rc) a =
        a ^^^ l.foldr (fun rc acc => f rc ^^^ acc) 0
  | [], a => by simp
  | rc :: l, a => by
    rw [List.foldl_cons, List.foldr_cons, foldl_xor_eq f l (a ^^^ f rc),
      Nat.xor_assoc]

theorem foldr_xor_congr (f f2 : Nat × Nat → Nat) :
    ∀ (l : List (Nat × Nat)), (∀ x ∈ l, f2 x = f x) →
      l.foldr (fun rc acc => f2 rc ^^^ acc) 0 =
        l.foldr (fun rc acc => f rc ^^^ acc) 0
  | [], _ => rfl
  | x :: l, h => by
    rw [List.foldr_cons, List.foldr_cons, h x (List.mem_cons_self x l),
      foldr_xor_congr f f2 l fun y hy => h y (List.mem_cons_of_mem x hy)]

/-- Changing the summand at one position of a duplicate-free list toggles
the XOR-fold by the old and new values at that position. -/
theorem foldr_xor_update (f f2 : Nat × Nat → Nat) (x0 : Nat × Nat) :
    ∀ (l : List (Nat × Nat)), l.Nodup → x0 ∈ l →
      (∀ x ∈ l, x ≠ x0 → f2 x = f x) →
      l.foldr (fun rc acc => f2 rc ^^^ acc) 0 =
        l.foldr (fun rc acc => f rc ^^^ acc) 0 ^^^ f x0 ^^^ f2 x0
  | [], _, hmem, _ => absurd hmem (by simp)
  | x :: l, hnd, hmem, hagree => by
    rcases List.mem_cons.mp hmem with rfl | hmem2
    · have htail : ∀ y ∈ l, f2 y = f y := fun y hy =>
        hagree y (List.mem_cons_of_mem _ hy)
          fun e => (List.nodup_cons.mp hnd).1 (e ▸ hy)
      rw [List.foldr_cons, List.foldr_cons, foldr_xor_congr f f2 l htail]
      exact (xor_shuffle _ _ _).symm
    · have hne : x ≠ x0 := fun e => (List.nodup_cons.mp hnd).1 (e ▸ hmem2)
      rw [List.foldr_cons, List.foldr_cons,
        foldr_xor_update f f2 x0 l (List.nodup_cons.mp hnd).2 hmem2
          (fun y hy => hagree y (List.mem_cons_of_mem x hy)),
        hagree x (List.mem_cons_self x l) hne]
      simp only [Nat.xor_assoc]

theorem cell_positions_nodup : cell_positions.Nodup := by decide

theorem mem_cell_positions (r c : Nat) (hr : r < ROWS) (hc : c < COLS) :
    (r, c) ∈ cell_positions := by
  unfold cell_positions
  simp only [List.mem_flatMap, List.mem_map, List.mem_range]
  exact ⟨r, hr, c, hc, rfl⟩

theorem boardWF_row_len (b : Board) (h : BoardWF b) (r : Nat)
    (hr : r < ROWS) : (b.getD r []).length = COLS := by
  refine h.2 _ ?_
  have hlen : r < b.length := by rw [h.1]; exact hr
  rw [List.getD_eq_getElem?_getD, List.getElem?_eq_getElem hlen]
  exact List.getElem_mem _

/-- Placing a piece on an in-range cell toggles the board hash by that
cell's old and new keys. -/
theorem board_hash_set (bt : Bot) (b : Board) (row col : Nat) (p : Player)
    (hr : row < ROWS) (hc : col < COLS) (hwf : BoardWF b) :
    board_hash bt (setCell b row col p) =
      board_hash bt b ^^^ bt.zobrist row col (cellAt b row col).value
        ^^^ bt.zobrist row col p.value := by
  have hsame : cellAt (setCell b row col p) row col = p :=
    cellAt_setCell_same b row col p (by rw [hwf.1]; exact hr)
      (by rw [boardWF_row_len b hwf row hr]; exact hc)
  have hupd := foldr_xor_update
    (fun rc => bt.zobrist rc.1 rc.2 (cellAt b rc.1 rc.2).value)
    (fun rc => bt.zobrist rc.1 rc.2
      (cellAt (setCell b row col p) rc.1 rc.2).value)
    (row, col) cell_positions cell_positions_nodup
    (mem_cell_positions row col hr hc)
    (fun x _ hx => by
      rcases x with ⟨x1, x2⟩
      show bt.zobrist x1 x2 (cellAt (setCell b row col p) x1 x2).value =
        bt.zobrist x1 x2 (cellAt b x1 x2).value
      rw [cellAt_setCell_other b row col x1 x2 p fun hcon =>
        hx (by rw [← hcon.1, ← hcon.2])])
  have hupd2 : board_hash bt (setCell b row col p) =
      board_hash bt b ^^^ bt.zobrist row col (cellAt b row col).value
        ^^^ bt.zobrist row col
          (cellAt (setCell b row col p) row col).value := by
    unfold board_hash
    rw [foldl_xor_eq, foldl_xor_eq, Nat.zero_xor, Nat.zero_xor]
    exact hupd
  rw [hsame] at hupd2
  exact hupd2

/-- `move_result` when the move leaves the game running: board updated,
player flipped, history extended, flags unchanged. -/
theorem move_result_not_over (g : Game) (col : Int) (row : Nat)
    (hnt : (move_result g col row).game_over = false) :
    move_result g col row =
      { board := setCell g.board row col.toNat g.current_player,
        current_player := flip_player g.current_player,
        game_over := g.game_over, winner := g.winner,
        move_history := g.move_history ++
          [(row, col.toNat, g.current_player)] } := by
  simp only [move_result] at hnt ⊢
  by_cases h1 : check_win (setCell g.board row col.toNat g.current_player)
      row col.toNat = true
  · rw [if_pos h1] at hnt; cases hnt
  · rw [if_neg h1] at hnt ⊢
    by_cases h2 : is_board_full
        (setCell g.board row col.toNat g.current_player) = true
    · rw [if_pos h2] at hnt; cases hnt
    · rw [if_neg h2]; rfl

/-- C3 (amended): for a move that leaves the game non-terminal, the
incremental hash update (cell delta plus side-to-move flip, as applied by
the search) agrees with `compute_hash` of the resulting position, and
after the matching `undo_move` the full hash is restored.  For game-ending
moves `make_move` does not flip `current_player`, while the update formula
does, so the two hashes then differ whenever the two side-to-move key
contributions differ — see the counterexample. -/
theorem c3_incremental_hash (bt : Bot) (g : Game) (c : Int) (row : Nat)
    (hre : Reachable g) (hrow : get_next_open_row g c = some row)
    (hnt : (make_move g c).2.game_over = false) :
    compute_hash bt (make_move g c).2 =
      update_hash_for_move bt (compute_hash bt g) row c.toNat
        Player.NONE g.current_player g.current_player
        (flip_player g.current_player) ∧
    compute_hash bt (undo_move (make_move g c).2).2 = compute_hash bt g := by
  obtain ⟨hval, hlt, hcell, _⟩ := get_next_open_row_spec g c row hrow
  obtain ⟨hge, hltc, _⟩ := is_valid_move_spec g c hval
  have hinv := reachable_inv g hre
  rcases make_move_characterize g c with ⟨hreason, heq⟩ | ⟨row2, hov, hrow2, heq⟩
  · rcases hreason with hx | hx
    · rw [heq] at hnt
      simp only at hnt
      rw [hnt] at hx
      cases hx
    · rw [hval] at hx; cases hx
  · rw [hrow] at hrow2
    have e : row = row2 := Option.some.inj hrow2
    subst e
    have hmk : (make_move g c).1 = true := by rw [heq]
    have hcol : c.toNat < COLS := by omega
    have h2 : (make_move g c).2 = move_result g c row := by rw [heq]
    constructor
    · rw [h2] at hnt ⊢
      rw [move_result_not_over g c row hnt]
      unfold compute_hash update_hash_for_move update_hash
      show board_hash bt (setCell g.board row c.toNat g.current_player) ^^^
        bt.player_key * (flip_player g.current_player).value = _
      rw [board_hash_set bt g.board row c.toNat g.current_player hlt hcol
        hinv.2, hcell]
      exact (xor_update_cancel (board_hash bt g.board)
        (bt.zobrist row c.toNat Player.NONE.value)
        (bt.zobrist row c.toNat g.current_player.value)
        (bt.player_key * g.current_player.value)
        (bt.player_key * (flip_player g.current_player).value)).symm
    · rw [undo_make g c (hinv.1 hov) hmk]

/-- The incrementally maintained hash described by the claim: before each
move read the open row, apply the move, and update the previous hash by
the cell delta and the side-to-move flip. -/
def hash_step (bt : Bot) (gh : Game × Nat) (c : Int) : Game × Nat :=
  match get_next_open_row gh.1 c with
  | some row =>
    ((make_move gh.1 c).2,
     update_hash_for_move bt gh.2 row c.toNat Player.NONE
       gh.1.current_player gh.1.current_player
       (flip_player gh.1.current_player))
  | none => ((make_move gh.1 c).2, gh.2)

def c3_bot : Bot := test_bot Player.YELLOW 1 "fixed"

/-- The seven-move game `[0,1,0,1,0,1,0]` (RED wins vertically in column
0 on the last move), with the claim's incremental hash threaded along. -/
def c3_trace : Game × Nat :=
  ([0, 1, 0, 1, 0, 1, 0] : List Int).foldl (hash_step c3_bot)
    (init_game, compute_hash c3_bot init_game)

set_option maxRecDepth 10000 in
/-- C3 counterexample: on the game-ending seventh move the incrementally
updated hash no longer equals `compute_hash` of the produced position:
`make_move` leaves `current_player` unflipped on terminal moves while the
update formula flips it. -/
theorem c3_counterexample :
    c3_trace.1.game_over = true ∧
      c3_trace.2 ≠ compute_hash c3_bot c3_trace.1 := by
  constructor
  · decide
  · decide

set_option maxRecDepth 10000 in
/-- C3 witness: the amended theorem applied to the first move of a game. -/
theorem c3_witness :
    get_next_open_row init_game 0 = some 5 ∧
    (make_move init_game 0).2.game_over = false ∧
    (compute_hash c3_bot (make_move init_game 0).2 =
      update_hash_for_move c3_bot (compute_hash c3_bot init_game) 5
        (0 : Int).toNat Player.NONE init_game.current_player
        init_game.current_player (flip_player init_game.current_player) ∧
     compute_hash c3_bot (undo_move (make_move init_game 0).2).2 =
       compute_hash c3_bot init_game) :=
  ⟨by decide, by decide,
   c3_incremental_hash c3_bot init_game 0 5 Reachable.init (by decide)
     (by decide)⟩

/-! ## C6: move ordering -/

/-- The full column list `[0..6]` as produced by `range(COLS)`. -/
def canonical_cols : List Int := (List.range COLS).map Int.ofNat

/-- A duplicate-free sublist is recovered by filtering its superlist. -/
theorem sublist_eq_filter {α : Type} [DecidableEq α] {l L : List α}
    (hs : l.Sublist L) (hnd : L.Nodup) :
    L.filter (fun x => decide (x ∈ l)) = l := by
  induction hs with
  | slnil => rfl
  | cons a h ih =>
    rename_i l1 l2
    rw [List.filter_cons]
    have hna : a ∉ l1 := fun hm => (List.nodup_cons.mp hnd).1 (h.subset hm)
    rw [if_neg (by simpa using hna)]
    exact ih (List.nodup_cons.mp hnd).2
  | cons₂ a h ih =>
    rename_i l1 l2
    rw [List.filter_cons, if_pos (by simp)]
    have hna : a ∉ l2 := (List.nodup_cons.mp hnd).1
    have hcongr : ∀ x ∈ l2, decide (x ∈ a :: l1) = decide (x ∈ l1) := by
      intro x hx
      have hxa : x ≠ a := fun e => hna (e ▸ hx)
      simp [List.mem_cons, hxa]
    rw [List.filter_congr hcongr]
    rw [ih (List.nodup_cons.mp hnd).2]

set_option maxRecDepth 20000 in
set_option maxHeartbeats 1000000 in
/-- The order produced by `_order_moves` on every duplicate-free subset of
the columns and every possible table best move, by enumeration of all 128
subsets. -/
theorem order_moves_core_enum :
    ∀ vm ∈ canonical_cols.sublists,
      (order_moves_core none vm =
          center_order.filter (fun m => decide (m ∈ vm)) ∧
        (order_moves_core none vm).Perm vm) ∧
      ∀ b ∈ vm,
        order_moves_core (some b) vm =
          b :: center_order.filter (fun m => decide (m ∈ vm ∧ m ≠ b)) ∧
        (order_moves_core (some b) vm).Perm vm := by decide

/-- C6: `_order_moves` returns a permutation of the legal moves (no
omission, no duplication); the transposition table's recorded best move
for the hash comes first when still legal, and the remaining legal moves
follow in the fixed center-out order `3, 2, 4, 1, 5, 0, 6`. -/
theorem c6_order_moves (tt : List (Nat × TTEntry)) (phash : Nat)
    (vm : List Int) (hsub : vm.Sublist canonical_cols) :
    (order_moves tt vm phash).Perm vm ∧
    order_moves tt vm phash =
      (match tt_best_move tt phash vm with
       | some b => b :: center_order.filter (fun m => decide (m ∈ vm ∧ m ≠ b))
       | none => center_order.filter (fun m => decide (m ∈ vm))) := by
  have hmem : vm ∈ canonical_cols.sublists := List.mem_sublists.mpr hsub
  have henum := order_moves_core_enum vm hmem
  unfold order_moves
  rcases hbest : tt_best_move tt phash vm with _ | b
  · exact ⟨henum.1.2, henum.1.1⟩
  · have hb : b ∈ vm := by
      unfold tt_best_move at hbest
      rcases hlk : tt.lookup phash with _ | e <;> rw [hlk] at hbest
      · exact absurd hbest (by simp)
      · change (match e.best_move with
          | some b2 => if b2 ∈ vm then some b2 else none
          | none => none) = some b at hbest
        rcases hbm : e.best_move with _ | b2 <;> rw [hbm] at hbest
        · exact absurd hbest (by simp)
        · change (if b2 ∈ vm then some b2 else none) = some b at hbest
          split at hbest
          · next h => exact (Option.some.inj hbest) ▸ h
          · cases hbest
    exact ⟨(henum.2 b hb).2, (henum.2 b hb).1⟩

/-- C6 witness: legal moves `[0, 2, 5]` with a stored best move 5. -/
theorem c6_witness :
    (order_moves [(7, ⟨0, 0, BoundType.EXACT, some 5⟩)] [0, 2, 5] 7).Perm
        [0, 2, 5] ∧
    order_moves [(7, ⟨0, 0, BoundType.EXACT, some 5⟩)] [0, 2, 5] 7 =
      (match tt_best_move [(7, ⟨0, 0, BoundType.EXACT, some 5⟩)] 7 [0, 2, 5]
          with
       | some b =>
         b :: center_order.filter (fun m => decide (m ∈ ([0, 2, 5] : List Int) ∧ m ≠ b))
       | none =>
         center_order.filter (fun m => decide (m ∈ ([0, 2, 5] : List Int)))) :=
  c6_order_moves [(7, ⟨0, 0, BoundType.EXACT, some 5⟩)] 7 [0, 2, 5]
    (by decide)

/-! ## C7: the evaluation heuristic -/

/-- The four axis directions of the claim (horizontal, vertical, both
diagonals). -/
def spec_dirs : List (Int × Int) := [(0, 1), (1, 0), (1, 1), (1, -1)]

/-- The 4 cells of the window starting at `(r, c)` along `(dr, dc)`. -/
def window_cells (r c dr dc : Int) : List (Int × Int) :=
  (List.range WIN_LENGTH).map fun i : Nat =>
    (r + dr * (i : Int), c + dc * (i : Int))

/-- A cell inside the 6x7 grid. -/
def in_board (rc : Int × Int) : Prop :=
  0 ≤ rc.1 ∧ rc.1 < (ROWS : Int) ∧ 0 ≤ rc.2 ∧ rc.2 < (COLS : Int)

instance in_board_dec : DecidablePred in_board := fun rc => by
  unfold in_board; infer_instance

/-- The window starting at `(r, c)` along `(dr, dc)` lies fully on the
board. -/
def window_ok (r c dr dc : Int) : Prop :=
  ∀ rc ∈ window_cells r c dr dc, in_board rc

instance window_ok_dec (r c dr dc : Int) : Decidable (window_ok r c dr dc) :=
  List.decidableBAll _ _

/-- Every start/direction pair whose 4 cells all lie on the board: each
axis-aligned 4-cell window of the grid exactly once. -/
def spec_windows : List (Int × Int × Int × Int) :=
  (cell_positions.flatMap fun rc =>
    spec_dirs.map fun d => ((rc.1 : Int), (rc.2 : Int), d.1, d.2)).filter
    fun w => decide (window_ok w.1 w.2.1 w.2.2.1 w.2.2.2)

/-- Read a cell given integer coordinates (used only in-bounds). -/
def read_cell (b : Board) (rc : Int × Int) : Player :=
  cellAt b rc.1.toNat rc.2.toNat

/-- The claim's per-window score: `10 ^ k` for a window holding only `k`
of the bot's pieces and empties, the negative for only the opponent's,
zero for mixed or fully-empty windows. -/
def spec_window_score (me opp : Player) (cells : List Player) : Int :=
  if (∀ x ∈ cells, x = me ∨ x = Player.NONE) ∧ (∃ x ∈ cells, x = me) then
    (10 : Int) ^ cells.count me
  else if (∀ x ∈ cells, x = opp ∨ x = Player.NONE) ∧ (∃ x ∈ cells, x = opp)
      then -((10 : Int) ^ cells.count opp)
  else 0

/-- The claim's evaluation: the sum of window scores over all windows. -/
def spec_eval (bt : Bot) (g : Game) : Int :=
  (spec_windows.map fun w =>
    spec_window_score bt.player bt.opponent
      ((window_cells w.1 w.2.1 w.2.2.1 w.2.2.2).map (read_cell g.board))).sum

theorem sum_map_ite {α : Type} (p : α → Prop) [DecidablePred p] (f : α → Int) :
    ∀ l : List α, (l.map fun x => if p x then f x else 0).sum =
      ((l.filter fun x => decide (p x)).map f).sum
  | [] => rfl
  | x :: l => by
    rw [List.map_cons, List.sum_cons, List.filter_cons]
    by_cases h : p x
    · rw [if_pos h, if_pos (by simpa using h), List.map_cons, List.sum_cons,
        sum_map_ite p f l]
    · rw [if_neg h, if_neg (by simpa using h), sum_map_ite p f l, Int.zero_add]

theorem sum_map_flat {α β : Type} (gf : α → List β) (f : β → Int) :
    ∀ l : List α, ((l.flatMap gf).map f).sum =
      (l.map fun x => ((gf x).map f).sum).sum
  | [] => rfl
  | x :: l => by
    rw [List.flatMap_cons, List.map_append, List.sum_append, List.map_cons,
      List.sum_cons, sum_map_flat gf f l]

set_option maxHeartbeats 3200000 in
/-- The code's count-based line score equals the claim's window score, by
case analysis over the four cell values and the bot's side. -/
theorem line_score_cases :
    ∀ me opp : Player,
      (me = Player.RED ∧ opp = Player.YELLOW) ∨
        (me = Player.YELLOW ∧ opp = Player.RED) →
      ∀ x0 x1 x2 x3 : Player,
        (let counts := [x0, x1, x2, x3].foldl
            (fun (acc : Nat × Nat × Nat) cell =>
              if cell = me then (acc.1 + 1, acc.2.1, acc.2.2)
              else if cell = opp then (acc.1, acc.2.1 + 1, acc.2.2)
              else (acc.1, acc.2.1, acc.2.2 + 1)) (0, 0, 0)
          if 0 < counts.1 ∧ counts.2.1 = 0 then (10 : Int) ^ counts.1
          else if 0 < counts.2.1 ∧ counts.1 = 0 then
            -((10 : Int) ^ counts.2.1)
          else 0) =
        spec_window_score me opp [x0, x1, x2, x3] := by
  rintro me opp (⟨rfl, rfl⟩ | ⟨rfl, rfl⟩) x0 x1 x2 x3 <;>
    cases x0 <;> cases x1 <;> cases x2 <;> cases x3 <;> decide

theorem player_case (bt : Bot)
    (hp : bt.player = Player.RED ∨ bt.player = Player.YELLOW) :
    (bt.player = Player.RED ∧ bt.opponent = Player.YELLOW) ∨
      (bt.player = Player.YELLOW ∧ bt.opponent = Player.RED) := by
  rcases hp with h | h <;> simp [Bot.opponent, h]

set_option maxHeartbeats 3200000 in
/-- `_evaluate_line` computes the claim's window score. -/
theorem evaluate_line_spec (bt : Bot) (g : Game) (row col dr dc : Int)
    (hp : bt.player = Player.RED ∨ bt.player = Player.YELLOW) :
    evaluate_line bt g row col dr dc =
      spec_window_score bt.player bt.opponent
        ((window_cells row col dr dc).map (read_cell g.board)) :=
  line_score_cases bt.player bt.opponent (player_case bt hp)
    (read_cell g.board (row + dr * 0, col + dc * 0))
    (read_cell g.board (row + dr * 1, col + dc * 1))
    (read_cell g.board (row + dr * 2, col + dc * 2))
    (read_cell g.board (row + dr * 3, col + dc * 3))

theorem forall_window_iff (r c dr dc : Int) :
    window_ok r c dr dc ↔
      ∀ i : Nat, i < WIN_LENGTH →
        in_board (r + dr * (i : Int), c + dc * (i : Int)) := by
  unfold window_ok window_cells
  constructor
  · intro h i hi
    exact h _ (List.mem_map.mpr ⟨i, List.mem_range.mpr hi, rfl⟩)
  · intro h rc hrc
    obtain ⟨i, hi, rfl⟩ := List.mem_map.mp hrc
    exact h i (List.mem_range.mp hi)

theorem guard_h (r c : Nat) (hr : r < ROWS) (hc : c < COLS) :
    window_ok r c 0 1 ↔ c ≤ COLS - WIN_LENGTH := by
  rw [forall_window_iff]
  have eR : ROWS = 6 := rfl
  have eC : COLS = 7 := rfl
  have eW : WIN_LENGTH = 4 := rfl
  constructor
  · intro h
    have h3 := h 3 (by decide)
    simp only [in_board] at h3
    omega
  · intro h i hi
    simp only [in_board]
    omega

theorem guard_v (r c : Nat) (hr : r < ROWS) (hc : c < COLS) :
    window_ok r c 1 0 ↔ r ≤ ROWS - WIN_LENGTH := by
  rw [forall_window_iff]
  have eR : ROWS = 6 := rfl
  have eC : COLS = 7 := rfl
  have eW : WIN_LENGTH = 4 := rfl
  constructor
  · intro h
    have h3 := h 3 (by decide)
    simp only [in_board] at h3
    omega
  · intro h i hi
    simp only [in_board]
    omega

theorem guard_d1 (r c : Nat) (hr : r < ROWS) (hc : c < COLS) :
    window_ok r c 1 1 ↔ r ≤ ROWS - WIN_LENGTH ∧ c ≤ COLS - WIN_LENGTH := by
  rw [forall_window_iff]
  have eR : ROWS = 6 := rfl
  have eC : COLS = 7 := rfl
  have eW : WIN_LENGTH = 4 := rfl
  constructor
  · intro h
    have h3 := h 3 (by decide)
    simp only [in_board] at h3
    omega
  · intro h i hi
    simp only [in_board]
    omega

theorem guard_d2 (r c : Nat) (hr : r < ROWS) (hc : c < COLS) :
    window_ok r c 1 (-1) ↔
      r ≤ ROWS - WIN_LENGTH ∧ WIN_LENGTH - 1 ≤ c := by
  rw [forall_window_iff]
  have eR : ROWS = 6 := rfl
  have eC : COLS = 7 := rfl
  have eW : WIN_LENGTH = 4 := rfl
  constructor
  · intro h
    have h3 := h 3 (by decide)
    simp only [in_board] at h3
    omega
  · intro h i hi
    simp only [in_board]
    omega

/-- One grid cell's contribution to `_evaluate_position` equals the sum of
the claim's scores of the in-bounds windows starting there. -/
theorem cell_contribution (bt : Bot) (g : Game)
    (hp : bt.player = Player.RED ∨ bt.player = Player.YELLOW)
    (r c : Nat) (hr : r < ROWS) (hc : c < COLS) :
    (if c ≤ COLS - WIN_LENGTH then evaluate_line bt g r c 0 1 else 0) +
      ((if r ≤ ROWS - WIN_LENGTH then evaluate_line bt g r c 1 0 else 0) +
       ((if r ≤ ROWS - WIN_LENGTH ∧ c ≤ COLS - WIN_LENGTH then
           evaluate_line bt g r c 1 1 else 0) +
        (if r ≤ ROWS - WIN_LENGTH ∧ WIN_LENGTH - 1 ≤ c then
           evaluate_line bt g r c 1 (-1) else 0))) =
      ((spec_dirs.map fun d =>
        if window_ok r c d.1 d.2 then
          spec_window_score bt.player bt.opponent
            ((window_cells r c d.1 d.2).map (read_cell g.board))
        else 0)).sum := by
  simp only [spec_dirs, List.map_cons, List.map_nil, List.sum_cons,
    List.sum_nil]
  rw [if_congr (guard_h r c hr hc).symm
      (evaluate_line_spec bt g r c 0 1 hp) rfl,
    if_congr (guard_v r c hr hc).symm
      (evaluate_line_spec bt g r c 1 0 hp) rfl,
    if_congr (guard_d1 r c hr hc).symm
      (evaluate_line_spec bt g r c 1 1 hp) rfl,
    if_congr (guard_d2 r c hr hc).symm
      (evaluate_line_spec bt g r c 1 (-1) hp) rfl]
  ring

/-- C7: `_evaluate_position` equals the claim's sum over every
axis-aligned 4-cell window of the per-window score. -/
theorem c7_evaluate_position (bt : Bot) (g : Game)
    (hp : bt.player = Player.RED ∨ bt.player = Player.YELLOW) :
    evaluate_position bt g = spec_eval bt g := by
  have h1 : evaluate_position bt g =
      (cell_positions.map fun rc =>
        (if rc.2 ≤ COLS - WIN_LENGTH then
          evaluate_line bt g rc.1 rc.2 0 1 else 0) +
        ((if rc.1 ≤ ROWS - WIN_LENGTH then
           evaluate_line bt g rc.1 rc.2 1 0 else 0) +
         ((if rc.1 ≤ ROWS - WIN_LENGTH ∧ rc.2 ≤ COLS - WIN_LENGTH then
            evaluate_line bt g rc.1 rc.2 1 1 else 0) +
          (if rc.1 ≤ ROWS - WIN_LENGTH ∧ WIN_LENGTH - 1 ≤ rc.2 then
            evaluate_line bt g rc.1 rc.2 1 (-1) else 0)))).sum := by
    unfold evaluate_position cell_positions
    rw [sum_map_flat]
    simp only [List.map_map]
    rfl
  have h3 : spec_eval bt g =
      (cell_positions.map fun rc =>
        ((spec_dirs.map fun d =>
          if window_ok rc.1 rc.2 d.1 d.2 then
            spec_window_score bt.player bt.opponent
              ((window_cells rc.1 rc.2 d.1 d.2).map (read_cell g.board))
          else 0)).sum).sum := by
    unfold spec_eval spec_windows
    rw [← sum_map_ite, sum_map_flat]
    simp only [List.map_map]
    rfl
  rw [h1, h3]
  congr 1
  refine List.map_congr_left ?_
  intro rc hrc
  have hbounds : rc.1 < ROWS ∧ rc.2 < COLS := by
    unfold cell_positions at hrc
    simp only [List.mem_flatMap, List.mem_map, List.mem_range] at hrc
    obtain ⟨r, hr, c, hc, rfl⟩ := hrc
    exact ⟨hr, hc⟩
  exact cell_contribution bt g hp rc.1 rc.2 hbounds.1 hbounds.2

/-- C7 witness: a RED bot on the one-move position of column 3. -/
theorem c7_witness :
    evaluate_position (zero_bot Player.RED 1 "fixed")
        (make_move init_game 3).2 =
      spec_eval (zero_bot Player.RED 1 "fixed") (make_move init_game 3).2 :=
  c7_evaluate_position (zero_bot Player.RED 1 "fixed")
    (make_move init_game 3).2 (Or.inl rfl)

/-! ## Game-state preservation through the search (C5, C1, C9) -/

theorem bool_not_true {b : Bool} (h : ¬(b = true)) : b = false := by
  cases b
  · rfl
  · exact absurd rfl h

theorem make_move_success (g : Game) (c : Int) (row : Nat)
    (hov : g.game_over = false) (hrow : get_next_open_row g c = some row) :
    make_move g c = (true, move_result g c row) := by
  rcases make_move_characterize g c with ⟨hreason, heq⟩ | ⟨row2, _, hrow2, heq⟩
  · rcases hreason with hx | hx
    · rw [hov] at hx; cases hx
    · rw [(get_next_open_row_spec g c row hrow).1] at hx; cases hx
  · rw [hrow] at hrow2
    have e : row = row2 := Option.some.inj hrow2
    subst e
    exact heq

theorem undo_after_make (g : Game) (c : Int) (row : Nat) (hinv : Inv g)
    (hov : g.game_over = false) (hrow : get_next_open_row g c = some row) :
    (undo_move (make_move g c).2).2 = g := by
  rw [undo_make g c (hinv.1 hov) (by rw [make_move_success g c row hov hrow])]

/-- The game component of a loop result (shared by `max_loop`, `min_loop`
and `root_loop`). -/
def sgame : Sum (Int × Game × SearchState)
    (Int × Option Int × Game × SearchState) → Game
  | Sum.inl r => r.2.1
  | Sum.inr r => r.2.2.1

/-- The game component of a step result (shared by `max_step` and
`min_step`). -/
def stgame : Sum (Int × Option Int × Game × SearchState)
    (Game × SearchState × Int × Option Int) → Game
  | Sum.inl r => r.2.2.1
  | Sum.inr r => r.1

theorem pvs_max_game
    (recurse : Game → SearchState → Int → Int → Nat →
      Int × Game × SearchState)
    (hrec : ∀ ga Sa a b h, Inv ga → (recurse ga Sa a b h).2.1 = ga)
    (g1 : Game) (S : SearchState) (alpha beta : Int) (nh : Nat) (fm : Bool)
    (hinv1 : Inv g1) :
    (pvs_max recurse g1 S alpha beta nh fm).2.1 = g1 := by
  unfold pvs_max
  split
  · exact hrec g1 S alpha beta nh hinv1
  · rcases hX : recurse g1 S alpha (alpha + 1) nh with ⟨s0, ga, Sa⟩
    have hga : ga = g1 := by
      have h2 := hrec g1 S alpha (alpha + 1) nh hinv1
      rw [hX] at h2
      exact h2
    show (if alpha < s0 ∧ s0 < beta then recurse ga Sa alpha beta nh
      else (s0, ga, Sa)).2.1 = g1
    split
    · rw [hga]
      exact hrec g1 Sa alpha beta nh hinv1
    · exact hga

theorem pvs_min_game
    (recurse : Game → SearchState → Int → Int → Nat →
      Int × Game × SearchState)
    (hrec : ∀ ga Sa a b h, Inv ga → (recurse ga Sa a b h).2.1 = ga)
    (g1 : Game) (S : SearchState) (alpha beta : Int) (nh : Nat) (fm : Bool)
    (hinv1 : Inv g1) :
    (pvs_min recurse g1 S alpha beta nh fm).2.1 = g1 := by
  unfold pvs_min
  split
  · exact hrec g1 S alpha beta nh hinv1
  · rcases hX : recurse g1 S (beta - 1) beta nh with ⟨s0, ga, Sa⟩
    have hga : ga = g1 := by
      have h2 := hrec g1 S (beta - 1) beta nh hinv1
      rw [hX] at h2
      exact h2
    show (if s0 < beta ∧ alpha < s0 then recurse ga Sa alpha beta nh
      else (s0, ga, Sa)).2.1 = g1
    split
    · rw [hga]
      exact hrec g1 Sa alpha beta nh hinv1
    · exact hga

theorem max_step_game (move eval_score : Int) (g2 : Game)
    (S2 : SearchState) (alpha beta : Int) (bm : Option Int) :
    stgame (max_step move eval_score g2 S2 alpha beta bm) =
      (undo_move g2).2 := by
  unfold max_step
  split <;> split <;> rfl

theorem min_step_game (move eval_score : Int) (g2 : Game)
    (S2 : SearchState) (alpha beta : Int) (bm : Option Int) :
    stgame (min_step move eval_score g2 S2 alpha beta bm) =
      (undo_move g2).2 := by
  unfold min_step
  split <;> split <;> rfl

theorem max_loop_game (bt : Bot)
    (recurse : Game → SearchState → Int → Int → Nat →
      Int × Game × SearchState)
    (hrec : ∀ ga Sa a b h, Inv ga → (recurse ga Sa a b h).2.1 = ga)
    (depth phash : Nat) :
    ∀ (moves : List Int) (g : Game) (S : SearchState) (alpha beta : Int)
      (fm : Bool) (bm : Option Int), Inv g → g.game_over = false →
      sgame (max_loop bt recurse depth phash moves g S alpha beta fm bm) = g
  | [], g, S, alpha, beta, fm, bm, hinv, hov => by
    simp only [max_loop, sgame]
  | move :: rest, g, S, alpha, beta, fm, bm, hinv, hov => by
    simp only [max_loop]
    split
    · exact max_loop_game bt recurse hrec depth phash rest g S alpha beta
        fm bm hinv hov
    · next row hrow =>
      have hinv1 : Inv (make_move g move).2 := inv_make g move hinv
      have hundo : (undo_move (make_move g move).2).2 = g :=
        undo_after_make g move row hinv hov hrow
      by_cases hwin : (make_move g move).2.game_over = true ∧
          (make_move g move).2.winner = bt.player
      · rw [if_pos hwin]
        show (undo_move (make_move g move).2).2 = g
        exact hundo
      · rw [if_neg hwin]
        rcases hres : pvs_max recurse (make_move g move).2 S alpha beta
            (update_hash_for_move bt phash row move.toNat Player.NONE
              bt.player bt.player bt.opponent) fm with ⟨es, g2, S2⟩
        have hg2 : g2 = (make_move g move).2 := by
          have h2 := pvs_max_game recurse hrec (make_move g move).2 S alpha
            beta (update_hash_for_move bt phash row move.toNat Player.NONE
              bt.player bt.player bt.opponent) fm hinv1
          rw [hres] at h2
          exact h2
        show sgame (match max_step move es g2 S2 alpha beta bm with
          | Sum.inl r => Sum.inr r
          | Sum.inr (g3, S3, alpha1, bm1) =>
            max_loop bt recurse depth phash rest g3 S3 alpha1 beta
              false bm1) = g
        have hstep := max_step_game move es g2 S2 alpha beta bm
        rcases hstep2 : max_step move es g2 S2 alpha beta bm
          with r | ⟨g3, S3, alpha1, bm1⟩
        · rw [hstep2] at hstep
          have hstep3 : r.2.2.1 = (undo_move g2).2 := hstep
          show r.2.2.1 = g
          rw [hstep3, hg2]
          exact hundo
        · rw [hstep2] at hstep
          have hstep3 : g3 = (undo_move g2).2 := hstep
          have hg3 : g3 = g := by
            rw [hstep3, hg2]
            exact hundo
          show sgame (max_loop bt recurse depth phash rest g3 S3 alpha1 beta
            false bm1) = g
          rw [hg3]
          exact max_loop_game bt recurse hrec depth phash rest g S3 alpha1
            beta false bm1 hinv hov

theorem min_loop_game (bt : Bot)
    (recurse : Game → SearchState → Int → Int → Nat →
      Int × Game × SearchState)
    (hrec : ∀ ga Sa a b h, Inv ga → (recurse ga Sa a b h).2.1 = ga)
    (depth phash : Nat) :
    ∀ (moves : List Int) (g : Game) (S : SearchState) (alpha beta : Int)
      (fm : Bool) (bm : Option Int), Inv g → g.game_over = false →
      sgame (min_loop bt recurse depth phash moves g S alpha beta fm bm) = g
  | [], g, S, alpha, beta, fm, bm, hinv, hov => by
    simp only [min_loop, sgame]
  | move :: rest, g, S, alpha, beta, fm, bm, hinv, hov => by
    simp only [min_loop]
    split
    · exact min_loop_game bt recurse hrec depth phash rest g S alpha beta
        fm bm hinv hov
    · next row hrow =>
      have hinv1 : Inv (make_move g move).2 := inv_make g move hinv
      have hundo : (undo_move (make_move g move).2).2 = g :=
        undo_after_make g move row hinv hov hrow
      by_cases hwin : (make_move g move).2.game_over = true ∧
          (make_move g move).2.winner = bt.opponent
      · rw [if_pos hwin]
        show (undo_move (make_move g move).2).2 = g
        exact hundo
      · rw [if_neg hwin]
        rcases hres : pvs_min recurse (make_move g move).2 S alpha beta
            (update_hash_for_move bt phash row move.toNat Player.NONE
              bt.opponent bt.opponent bt.player) fm with ⟨es, g2, S2⟩
        have hg2 : g2 = (make_move g move).2 := by
          have h2 := pvs_min_game recurse hrec (make_move g move).2 S alpha
            beta (update_hash_for_move bt phash row move.toNat Player.NONE
              bt.opponent bt.opponent bt.player) fm hinv1
          rw [hres] at h2
          exact h2
        show sgame (match min_step move es g2 S2 alpha beta bm with
          | Sum.inl r => Sum.inr r
          | Sum.inr (g3, S3, beta1, bm1) =>
            min_loop bt recurse depth phash rest g3 S3 alpha beta1
              false bm1) = g
        have hstep := min_step_game move es g2 S2 alpha beta bm
        rcases hstep2 : min_step move es g2 S2 alpha beta bm
          with r | ⟨g3, S3, beta1, bm1⟩
        · rw [hstep2] at hstep
          have hstep3 : r.2.2.1 = (undo_move g2).2 := hstep
          show r.2.2.1 = g
          rw [hstep3, hg2]
          exact hundo
        · rw [hstep2] at hstep
          have hstep3 : g3 = (undo_move g2).2 := hstep
          have hg3 : g3 = g := by
            rw [hstep3, hg2]
            exact hundo
          show sgame (min_loop bt recurse depth phash rest g3 S3 alpha beta1
            false bm1) = g
          rw [hg3]
          exact min_loop_game bt recurse hrec depth phash rest g S3 alpha
            beta1 false bm1 hinv hov

theorem minimax_node_game (bt : Bot)
    (recF : Game → SearchState → Bool → Int → Int → Nat →
      Int × Game × SearchState)
    (depth1 : Nat) (g : Game) (S1 : SearchState) (vms : List Int)
    (maximizing : Bool) (alpha beta : Int) (phash : Nat)
    (hrec : ∀ ga Sa mx a b h, Inv ga → (recF ga Sa mx a b h).2.1 = ga)
    (hinv : Inv g) (hov : g.game_over = false) :
    (minimax_node bt recF depth1 g S1 vms maximizing alpha beta
      phash).2.1 = g := by
  unfold minimax_node
  split
  · rfl
  · split
    · have hml := max_loop_game bt
        (fun ga Sa a2 b2 h2 => recF ga Sa false a2 b2 h2)
        (fun ga Sa a2 b2 h2 hi => hrec ga Sa false a2 b2 h2 hi)
        depth1 phash (order_moves S1.tt vms phash) g S1 alpha beta true none
        hinv hov
      rcases hml2 : max_loop bt
          (fun ga Sa a2 b2 h2 => recF ga Sa false a2 b2 h2)
          depth1 phash (order_moves S1.tt vms phash) g S1 alpha beta true
          none with r | ⟨me, bm2, g2, S2⟩
      · rw [hml2] at hml
        show r.2.1 = g
        exact hml
      · rw [hml2] at hml
        show g2 = g
        exact hml
    · have hml := min_loop_game bt
        (fun ga Sa a2 b2 h2 => recF ga Sa true a2 b2 h2)
        (fun ga Sa a2 b2 h2 hi => hrec ga Sa true a2 b2 h2 hi)
        depth1 phash (order_moves S1.tt vms phash) g S1 alpha beta true none
        hinv hov
      rcases hml2 : min_loop bt
          (fun ga Sa a2 b2 h2 => recF ga Sa true a2 b2 h2)
          depth1 phash (order_moves S1.tt vms phash) g S1 alpha beta true
          none with r | ⟨me, bm2, g2, S2⟩
      · rw [hml2] at hml
        show r.2.1 = g
        exact hml
      · rw [hml2] at hml
        show g2 = g
        exact hml

/-- `_minimax_with_hash` restores the game it was given: every `make_move`
on every path is matched by exactly one `undo_move`. -/
theorem minimax_game (bt : Bot) :
    ∀ (depth : Nat) (g : Game) (S : SearchState) (maximizing : Bool)
      (alpha beta : Int) (phash : Nat), Inv g →
      (minimax_with_hash bt depth g S maximizing alpha beta phash).2.1 = g := by
  intro depth
  induction depth with
  | zero =>
    intro g S maximizing alpha beta phash hinv
    rw [minimax_with_hash]
    rcases htp : tt_probe S.tt phash 0 alpha beta with s | ⟨a, b⟩
    · rfl
    · rcases hec : eval_cache_get bt g S phash with ⟨sc, S1⟩
      cases hov : g.game_over <;> rfl
  | succ d ih =>
    intro g S maximizing alpha beta phash hinv
    rw [minimax_with_hash]
    rcases htp : tt_probe S.tt phash (d + 1) alpha beta with s | ⟨a, b⟩
    · rfl
    · rcases hvm : vm_cache_get g S phash with ⟨vms, S1⟩
      cases hov : g.game_over
      · exact minimax_node_game bt
          (fun ga Sa mx a2 b2 h2 => minimax_with_hash bt d ga Sa mx a2 b2 h2)
          (d + 1) g S1 vms maximizing a b phash
          (fun ga Sa mx a2 b2 h2 hi => ih ga Sa mx a2 b2 h2 hi) hinv hov
      · rfl

theorem root_loop_game (bt : Bot) (sdepth phash : Nat) :
    ∀ (moves : List Int) (g : Game) (S : SearchState) (bv : Int)
      (bm : Option Int), Inv g → g.game_over = false →
      sgame (root_loop bt sdepth phash moves g S bv bm) = g
  | [], g, S, bv, bm, hinv, hov => by
    simp only [root_loop, sgame]
  | move :: rest, g, S, bv, bm, hinv, hov => by
    simp only [root_loop]
    split
    · exact root_loop_game bt sdepth phash rest g S bv bm hinv hov
    · next row hrow =>
      have hinv1 : Inv (make_move g move).2 := inv_make g move hinv
      have hundo : (undo_move (make_move g move).2).2 = g :=
        undo_after_make g move row hinv hov hrow
      by_cases hwin : (make_move g move).2.game_over = true ∧
          (make_move g move).2.winner = bt.player
      · rw [if_pos hwin]
        show (undo_move (make_move g move).2).2 = g
        exact hundo
      · rw [if_neg hwin]
        rcases hres : minimax_with_hash bt sdepth (make_move g move).2 S
            false (-INF) INF
            (update_hash_for_move bt phash row move.toNat Player.NONE
              bt.player bt.player bt.opponent) with ⟨value, g2, S2⟩
        have hg2 : g2 = (make_move g move).2 := by
          have h2 := minimax_game bt sdepth (make_move g move).2 S false
            (-INF) INF
            (update_hash_for_move bt phash row move.toNat Player.NONE
              bt.player bt.player bt.opponent) hinv1
          rw [hres] at h2
          exact h2
        have hundo2 : (undo_move g2).2 = g := by
          rw [hg2]
          exact hundo
        show sgame (if bv < value then
            root_loop bt sdepth phash rest (undo_move g2).2 S2 value
              (some move)
          else
            root_loop bt sdepth phash rest (undo_move g2).2 S2 bv bm) = g
        rw [hundo2]
        split
        · exact root_loop_game bt sdepth phash rest g S2 value (some move)
            hinv hov
        · exact root_loop_game bt sdepth phash rest g S2 bv bm hinv hov

theorem iter_loop_game (bt : Bot) (phash : Nat) (vms : List Int) :
    ∀ (depths : List Nat) (g : Game) (S : SearchState) (bm : Option Int),
      Inv g → g.game_over = false →
      (iter_loop bt phash vms depths g S bm).2.1 = g
  | [], _, _, _, _, _ => rfl
  | cd :: rest, g, S, bm, hinv, hov => by
    simp only [iter_loop]
    have hrl := root_loop_game bt (cd - 1) phash
      (order_moves S.tt vms phash) g S (-INF) none hinv hov
    rcases hrl2 : root_loop bt (cd - 1) phash
        (order_moves S.tt vms phash) g S (-INF) none
      with r | ⟨bv, cbm, g1, S1⟩
    · rw [hrl2] at hrl
      show r.2.1 = g
      exact hrl
    · rw [hrl2] at hrl
      have hg1 : g1 = g := hrl
      cases cbm with
      | some m =>
        show (iter_loop bt phash vms rest g1 S1 (some m)).2.1 = g
        rw [hg1]
        exact iter_loop_game bt phash vms rest g S1 (some m) hinv hov
      | none =>
        show (iter_loop bt phash vms rest g1 S1 bm).2.1 = g
        rw [hg1]
        exact iter_loop_game bt phash vms rest g S1 bm hinv hov

theorem get_best_move_iterative_game (bt : Bot) (g : Game)
    (S : SearchState) (vms : List Int) (hinv : Inv g)
    (hov : g.game_over = false) :
    (get_best_move_iterative bt g S vms).2.1 = g := by
  unfold get_best_move_iterative
  exact iter_loop_game bt (compute_hash bt g) vms (List.range' 1 bt.depth)
    g S none hinv hov

theorem get_best_move_fixed_game (bt : Bot) (g : Game) (S : SearchState)
    (vms : List Int) (hinv : Inv g) (hov : g.game_over = false) :
    (get_best_move_fixed bt g S vms).2.1 = g := by
  unfold get_best_move_fixed
  have hrl := root_loop_game bt (bt.depth - 1) (compute_hash bt g)
    (order_moves S.tt vms (compute_hash bt g)) g S (-INF) none hinv hov
  rcases hrl2 : root_loop bt (bt.depth - 1) (compute_hash bt g)
      (order_moves S.tt vms (compute_hash bt g)) g S (-INF) none
    with r | ⟨bv, bm2, g1, S1⟩
  · rw [hrl2] at hrl
    show r.2.1 = g
    exact hrl
  · rw [hrl2] at hrl
    show g1 = g
    exact hrl

/-- C5: after `get_best_move` returns — on either search path, terminal
or not — the game object it was handed is in exactly the state it was in
before the call: same board, same current player, same flags, same move
history. -/
theorem c5_search_preserves_state (bt : Bot) (g : Game) (S : SearchState)
    (hr : Reachable g) : (get_best_move bt g S).2.1 = g := by
  have hinv : Inv g := reachable_inv g hr
  unfold get_best_move
  split
  · rfl
  · next hgo =>
    have hov : g.game_over = false := bool_not_true hgo
    split
    · rfl
    · split
      · exact get_best_move_iterative_game bt g ⟨[], [], []⟩
          (get_valid_moves g) hinv hov
      · exact get_best_move_fixed_game bt g ⟨[], [], []⟩
          (get_valid_moves g) hinv hov

/-- Witness for C5 at a concrete reachable position. -/
theorem c5_witness :
    (get_best_move (test_bot Player.RED 1 "fixed")
      (play init_game [3, 3]) ⟨[], [], []⟩).2.1 = play init_game [3, 3] :=
  c5_search_preserves_state (test_bot Player.RED 1 "fixed")
    (play init_game [3, 3]) ⟨[], [], []⟩
    (reachable_play init_game Reachable.init [3, 3])

/-! ## Transposition-table population (C9) -/

theorem tt_probe_inl_ne (tt : List (Nat × TTEntry)) (phash depth : Nat)
    (alpha beta : Int) (s : Int)
    (h : tt_probe tt phash depth alpha beta = Sum.inl s) : tt ≠ [] := by
  intro he
  subst he
  exact nomatch h

theorem max_loop_inl_tt (bt : Bot)
    (recurse : Game → SearchState → Int → Int → Nat →
      Int × Game × SearchState)
    (depth phash : Nat) :
    ∀ (moves : List Int) (g : Game) (S : SearchState) (alpha beta : Int)
      (fm : Bool) (bm : Option Int) (r : Int × Game × SearchState),
      max_loop bt recurse depth phash moves g S alpha beta fm bm =
        Sum.inl r → r.2.2.tt ≠ []
  | [], g, S, alpha, beta, fm, bm, r, h => nomatch h
  | move :: rest, g, S, alpha, beta, fm, bm, r, h => by
    simp only [max_loop] at h
    rcases hrowE : get_next_open_row g move with _ | row
    · rw [hrowE] at h
      have h2 : max_loop bt recurse depth phash rest g S alpha beta fm bm =
          Sum.inl r := h
      exact max_loop_inl_tt bt recurse depth phash rest g S alpha beta fm
        bm r h2
    · rw [hrowE] at h
      have h2 : (if (make_move g move).2.game_over = true ∧
            (make_move g move).2.winner = bt.player then
          Sum.inl (1000 + (depth : Int),
            (undo_move (make_move g move).2).2,
            tt_store S phash
              ⟨1000 + (depth : Int), depth, BoundType.EXACT, some move⟩)
        else
          match pvs_max recurse (make_move g move).2 S alpha beta
              (update_hash_for_move bt phash row move.toNat Player.NONE
                bt.player bt.player bt.opponent) fm with
          | (eval_score, g2, S2) =>
            match max_step move eval_score g2 S2 alpha beta bm with
            | Sum.inl r2 => Sum.inr r2
            | Sum.inr (g3, S3, alpha1, bm1) =>
              max_loop bt recurse depth phash rest g3 S3 alpha1 beta
                false bm1) = Sum.inl r := h
      by_cases hwin : (make_move g move).2.game_over = true ∧
          (make_move g move).2.winner = bt.player
      · rw [if_pos hwin] at h2
        injection h2 with h3
        rw [← h3]
        exact List.cons_ne_nil _ _
      · rw [if_neg hwin] at h2
        rcases hres : pvs_max recurse (make_move g move).2 S alpha beta
            (update_hash_for_move bt phash row move.toNat Player.NONE
              bt.player bt.player bt.opponent) fm with ⟨es, g2, S2⟩
        rw [hres] at h2
        have h3 : (match max_step move es g2 S2 alpha beta bm with
          | Sum.inl r2 => Sum.inr r2
          | Sum.inr (g3, S3, alpha1, bm1) =>
            max_loop bt recurse depth phash rest g3 S3 alpha1 beta
              false bm1) = Sum.inl r := h2
        rcases hstep2 : max_step move es g2 S2 alpha beta bm
          with r2 | ⟨g3, S3, alpha1, bm1⟩
        · rw [hstep2] at h3
          exact nomatch h3
        · rw [hstep2] at h3
          have h4 : max_loop bt recurse depth phash rest g3 S3 alpha1 beta
              false bm1 = Sum.inl r := h3
          exact max_loop_inl_tt bt recurse depth phash rest g3 S3 alpha1
            beta false bm1 r h4

theorem min_loop_inl_tt (bt : Bot)
    (recurse : Game → SearchState → Int → Int → Nat →
      Int × Game × SearchState)
    (depth phash : Nat) :
    ∀ (moves : List Int) (g : Game) (S : SearchState) (alpha beta : Int)
      (fm : Bool) (bm : Option Int) (r : Int × Game × SearchState),
      min_loop bt recurse depth phash moves g S alpha beta fm bm =
        Sum.inl r → r.2.2.tt ≠ []
  | [], g, S, alpha, beta, fm, bm, r, h => nomatch h
  | move :: rest, g, S, alpha, beta, fm, bm, r, h => by
    simp only [min_loop] at h
    rcases hrowE : get_next_open_row g move with _ | row
    · rw [hrowE] at h
      have h2 : min_loop bt recurse depth phash rest g S alpha beta fm bm =
          Sum.inl r := h
      exact min_loop_inl_tt bt recurse depth phash rest g S alpha beta fm
        bm r h2
    · rw [hrowE] at h
      have h2 : (if (make_move g move).2.game_over = true ∧
            (make_move g move).2.winner = bt.opponent then
          Sum.inl (-1000 - (depth : Int),
            (undo_move (make_move g move).2).2,
            tt_store S phash
              ⟨-1000 - (depth : Int), depth, BoundType.EXACT, some move⟩)
        else
          match pvs_min recurse (make_move g move).2 S alpha beta
              (update_hash_for_move bt phash row move.toNat Player.NONE
                bt.opponent bt.opponent bt.player) fm with
          | (eval_score, g2, S2) =>
            match min_step move eval_score g2 S2 alpha beta bm with
            | Sum.inl r2 => Sum.inr r2
            | Sum.inr (g3, S3, beta1, bm1) =>
              min_loop bt recurse depth phash rest g3 S3 alpha beta1
                false bm1) = Sum.inl r := h
      by_cases hwin : (make_move g move).2.game_over = true ∧
          (make_move g move).2.winner = bt.opponent
      · rw [if_pos hwin] at h2
        injection h2 with h3
        rw [← h3]
        exact List.cons_ne_nil _ _
      · rw [if_neg hwin] at h2
        rcases hres : pvs_min recurse (make_move g move).2 S alpha beta
            (update_hash_for_move bt phash row move.toNat Player.NONE
              bt.opponent bt.opponent bt.player) fm with ⟨es, g2, S2⟩
        rw [hres] at h2
        have h3 : (match min_step move es g2 S2 alpha beta bm with
          | Sum.inl r2 => Sum.inr r2
          | Sum.inr (g3, S3, beta1, bm1) =>
            min_loop bt recurse depth phash rest g3 S3 alpha beta1
              false bm1) = Sum.inl r := h2
        rcases hstep2 : min_step move es g2 S2 alpha beta bm
          with r2 | ⟨g3, S3, beta1, bm1⟩
        · rw [hstep2] at h3
          exact nomatch h3
        · rw [hstep2] at h3
          have h4 : min_loop bt recurse depth phash rest g3 S3 alpha beta1
              false bm1 = Sum.inl r := h3
          exact min_loop_inl_tt bt recurse depth phash rest g3 S3 alpha
            beta1 false bm1 r h4

theorem minimax_node_tt (bt : Bot)
    (recF : Game → SearchState → Bool → Int → Int → Nat →
      Int × Game × SearchState)
    (depth1 : Nat) (g : Game) (S1 : SearchState) (vms : List Int)
    (maximizing : Bool) (alpha beta : Int) (phash : Nat) :
    (minimax_node bt recF depth1 g S1 vms maximizing alpha beta
      phash).2.2.tt ≠ [] := by
  unfold minimax_node
  split
  · exact List.cons_ne_nil _ _
  · split
    · rcases hml2 : max_loop bt
          (fun ga Sa a2 b2 h2 => recF ga Sa false a2 b2 h2)
          depth1 phash (order_moves S1.tt vms phash) g S1 alpha beta true
          none with r | ⟨me, bm2, g2, S2⟩
      · show r.2.2.tt ≠ []
        exact max_loop_inl_tt bt
          (fun ga Sa a2 b2 h2 => recF ga Sa false a2 b2 h2)
          depth1 phash (order_moves S1.tt vms phash) g S1 alpha beta true
          none r hml2
      · exact List.cons_ne_nil _ _
    · rcases hml2 : min_loop bt
          (fun ga Sa a2 b2 h2 => recF ga Sa true a2 b2 h2)
          depth1 phash (order_moves S1.tt vms phash) g S1 alpha beta true
          none with r | ⟨me, bm2, g2, S2⟩
      · show r.2.2.tt ≠ []
        exact min_loop_inl_tt bt
          (fun ga Sa a2 b2 h2 => recF ga Sa true a2 b2 h2)
          depth1 phash (order_moves S1.tt vms phash) g S1 alpha beta true
          none r hml2
      · exact List.cons_ne_nil _ _

/-- Every `_minimax_with_hash` call leaves a nonempty transposition table:
either it stores an entry on exit, or it returned on a probe hit, which
requires a nonempty table already. -/
theorem minimax_tt (bt : Bot) :
    ∀ (depth : Nat) (g : Game) (S : SearchState) (maximizing : Bool)
      (alpha beta : Int) (phash : Nat),
      (minimax_with_hash bt depth g S maximizing alpha beta
        phash).2.2.tt ≠ [] := by
  intro depth
  induction depth with
  | zero =>
    intro g S maximizing alpha beta phash
    rw [minimax_with_hash]
    rcases htp : tt_probe S.tt phash 0 alpha beta with s | ⟨a, b⟩
    · show S.tt ≠ []
      exact tt_probe_inl_ne S.tt phash 0 alpha beta s htp
    · rcases hec : eval_cache_get bt g S phash with ⟨sc, S1⟩
      cases hov : g.game_over
      · exact List.cons_ne_nil _ _
      · exact List.cons_ne_nil _ _
  | succ d ih =>
    intro g S maximizing alpha beta phash
    rw [minimax_with_hash]
    rcases htp : tt_probe S.tt phash (d + 1) alpha beta with s | ⟨a, b⟩
    · show S.tt ≠ []
      exact tt_probe_inl_ne S.tt phash (d + 1) alpha beta s htp
    · rcases hvm : vm_cache_get g S phash with ⟨vms, S1⟩
      cases hov : g.game_over
      · exact minimax_node_tt bt
          (fun ga Sa mx a2 b2 h2 => minimax_with_hash bt d ga Sa mx a2 b2 h2)
          (d + 1) g S1 vms maximizing a b phash
      · exact List.cons_ne_nil _ _

/-- `_order_moves` permutes its input whenever the legal moves are a
duplicate-free subset of the seven columns (helper shared by several
claims; proved by the same 128-subset enumeration as the ordering law). -/
theorem order_moves_perm (tt : List (Nat × TTEntry)) (phash : Nat)
    (vm : List Int) (hsub : vm.Sublist canonical_cols) :
    (order_moves tt vm phash).Perm vm := by
  have hmem : vm ∈ canonical_cols.sublists := List.mem_sublists.mpr hsub
  have henum := order_moves_core_enum vm hmem
  unfold order_moves
  rcases hbest : tt_best_move tt phash vm with _ | b
  · exact henum.1.2
  · have hb : b ∈ vm := by
      unfold tt_best_move at hbest
      rcases hlk : tt.lookup phash with _ | e <;> rw [hlk] at hbest
      · exact absurd hbest (by simp)
      · change (match e.best_move with
          | some b2 => if b2 ∈ vm then some b2 else none
          | none => none) = some b at hbest
        rcases hbm : e.best_move with _ | b2 <;> rw [hbm] at hbest
        · exact absurd hbest (by simp)
        · change (if b2 ∈ vm then some b2 else none) = some b at hbest
          split at hbest
          · next h => exact (Option.some.inj hbest) ▸ h
          · cases hbest
    exact (henum.2 b hb).2

/-- The legal-move list is a (duplicate-free) sublist of the seven
columns. -/
theorem get_valid_moves_sublist (g : Game) :
    (get_valid_moves g).Sublist canonical_cols := by
  unfold get_valid_moves canonical_cols
  exact List.filter_sublist _

/-- A column with an open row is one of the legal moves. -/
theorem mem_valid_of_row (g : Game) (m : Int) (row : Nat)
    (hrow : get_next_open_row g m = some row) : m ∈ get_valid_moves g := by
  have hval : is_valid_move g m = true := by
    unfold get_next_open_row at hrow
    by_cases hv : is_valid_move g m = false
    · rw [if_pos hv] at hrow
      cases hrow
    · cases hbv : is_valid_move g m
      · exact absurd hbv hv
      · rfl
  have hspec := is_valid_move_spec g m hval
  unfold get_valid_moves
  apply List.mem_filter.mpr
  refine ⟨List.mem_map.mpr ⟨m.toNat, List.mem_range.mpr ?_,
    Int.toNat_of_nonneg hspec.1⟩, hval⟩
  have h7 : m < (7 : Int) := hspec.2.1
  have h0 : (0 : Int) ≤ m := hspec.1
  show m.toNat < 7
  omega

/-- A move without an open row leaves the game object untouched. -/
theorem make_move_noop (g : Game) (m : Int)
    (hrow : get_next_open_row g m = none) : (make_move g m).2 = g := by
  rcases make_move_characterize g m with ⟨_, heq⟩ | ⟨row, _, hrow2, _⟩
  · rw [heq]
  · rw [hrow] at hrow2
    cases hrow2

/-- When no root move wins immediately, the root loop runs to completion
(`Sum.inr`), and its final caches have a nonempty transposition table as
soon as the incoming table was nonempty or some listed move was legal
(each searched child stores at least one entry). -/
theorem root_loop_safe (bt : Bot) (sdepth phash : Nat) :
    ∀ (moves : List Int) (g : Game) (S : SearchState) (bv : Int)
      (bm : Option Int), Inv g → g.game_over = false →
      (∀ m : Int, ¬((make_move g m).2.game_over = true ∧
        (make_move g m).2.winner = bt.player)) →
      ∃ r, root_loop bt sdepth phash moves g S bv bm = Sum.inr r ∧
        ((S.tt ≠ [] ∨ ∃ m ∈ moves, get_next_open_row g m ≠ none) →
          r.2.2.2.tt ≠ [])
  | [], g, S, bv, bm, hinv, hov, hnw =>
    ⟨(bv, bm, g, S), rfl, fun h => by
      rcases h with h | ⟨m, hm, _⟩
      · exact h
      · exact absurd hm (List.not_mem_nil m)⟩
  | move :: rest, g, S, bv, bm, hinv, hov, hnw => by
    simp only [root_loop]
    rcases hrowE : get_next_open_row g move with _ | row
    · obtain ⟨r, heq, htt⟩ := root_loop_safe bt sdepth phash rest g S bv bm
        hinv hov hnw
      refine ⟨r, heq, fun h => htt ?_⟩
      rcases h with h | ⟨m, hm, hmleg⟩
      · exact Or.inl h
      · rcases List.mem_cons.mp hm with e | hmr
        · subst e
          exact absurd hrowE hmleg
        · exact Or.inr ⟨m, hmr, hmleg⟩
    · have hinv1 : Inv (make_move g move).2 := inv_make g move hinv
      have hundo : (undo_move (make_move g move).2).2 = g :=
        undo_after_make g move row hinv hov hrowE
      show ∃ r, (if (make_move g move).2.game_over = true ∧
            (make_move g move).2.winner = bt.player then
          Sum.inl (move, (undo_move (make_move g move).2).2, S)
        else
          match minimax_with_hash bt sdepth (make_move g move).2 S false
              (-INF) INF
              (update_hash_for_move bt phash row move.toNat Player.NONE
                bt.player bt.player bt.opponent) with
          | (value, g2, S2) =>
            if bv < value then
              root_loop bt sdepth phash rest (undo_move g2).2 S2 value
                (some move)
            else
              root_loop bt sdepth phash rest (undo_move g2).2 S2 bv bm)
          = Sum.inr r ∧
        ((S.tt ≠ [] ∨ ∃ m ∈ move :: rest, get_next_open_row g m ≠ none) →
          r.2.2.2.tt ≠ [])
      rw [if_neg (hnw move)]
      rcases hres : minimax_with_hash bt sdepth (make_move g move).2 S false
          (-INF) INF
          (update_hash_for_move bt phash row move.toNat Player.NONE
            bt.player bt.player bt.opponent) with ⟨value, g2, S2⟩
      have hSne : S2.tt ≠ [] := by
        have h2 := minimax_tt bt sdepth (make_move g move).2 S false (-INF)
          INF (update_hash_for_move bt phash row move.toNat Player.NONE
            bt.player bt.player bt.opponent)
        rw [hres] at h2
        exact h2
      have hg2 : g2 = (make_move g move).2 := by
        have h2 := minimax_game bt sdepth (make_move g move).2 S false
          (-INF) INF
          (update_hash_for_move bt phash row move.toNat Player.NONE
            bt.player bt.player bt.opponent) hinv1
        rw [hres] at h2
        exact h2
      have hundo2 : (undo_move g2).2 = g := by
        rw [hg2]
        exact hundo
      show ∃ r, (if bv < value then
          root_loop bt sdepth phash rest (undo_move g2).2 S2 value
            (some move)
        else root_loop bt sdepth phash rest (undo_move g2).2 S2 bv bm)
          = Sum.inr r ∧
        ((S.tt ≠ [] ∨ ∃ m ∈ move :: rest, get_next_open_row g m ≠ none) →
          r.2.2.2.tt ≠ [])
      rw [hundo2]
      by_cases hbv : bv < value
      · rw [if_pos hbv]
        obtain ⟨r, heq, htt⟩ := root_loop_safe bt sdepth phash rest g S2
          value (some move) hinv hov hnw
        exact ⟨r, heq, fun _ => htt (Or.inl hSne)⟩
      · rw [if_neg hbv]
        obtain ⟨r, heq, htt⟩ := root_loop_safe bt sdepth phash rest g S2
          bv bm hinv hov hnw
        exact ⟨r, heq, fun _ => htt (Or.inl hSne)⟩

theorem iter_loop_tt (bt : Bot) (phash : Nat) (vms : List Int)
    (hsub : vms.Sublist canonical_cols) :
    ∀ (depths : List Nat) (g : Game) (S : SearchState) (bm : Option Int),
      Inv g → g.game_over = false →
      (∃ m ∈ vms, get_next_open_row g m ≠ none) →
      (∀ m : Int, ¬((make_move g m).2.game_over = true ∧
        (make_move g m).2.winner = bt.player)) →
      (depths ≠ [] ∨ S.tt ≠ []) →
      (iter_loop bt phash vms depths g S bm).2.2.tt ≠ []
  | [], g, S, bm, hinv, hov, hleg, hnw, hne => by
    rcases hne with h | h
    · exact absurd rfl h
    · exact h
  | cd :: rest, g, S, bm, hinv, hov, hleg, hnw, hne => by
    simp only [iter_loop]
    obtain ⟨r, heq, htt⟩ := root_loop_safe bt (cd - 1) phash
      (order_moves S.tt vms phash) g S (-INF) none hinv hov hnw
    rw [heq]
    obtain ⟨m, hm, hmleg⟩ := hleg
    have hmem : m ∈ order_moves S.tt vms phash :=
      (order_moves_perm S.tt phash vms hsub).mem_iff.mpr hm
    have hSne : r.2.2.2.tt ≠ [] := htt (Or.inr ⟨m, hmem, hmleg⟩)
    have hg1 : r.2.2.1 = g := by
      have h2 := root_loop_game bt (cd - 1) phash
        (order_moves S.tt vms phash) g S (-INF) none hinv hov
      rw [heq] at h2
      exact h2
    rcases r with ⟨bv2, cbm, g1, S1⟩
    have hg1b : g1 = g := hg1
    have hSneb : S1.tt ≠ [] := hSne
    cases cbm with
    | some m2 =>
      show (iter_loop bt phash vms rest g1 S1 (some m2)).2.2.tt ≠ []
      rw [hg1b]
      exact iter_loop_tt bt phash vms hsub rest g S1 (some m2) hinv hov
        ⟨m, hm, hmleg⟩ hnw (Or.inr hSneb)
    | none =>
      show (iter_loop bt phash vms rest g1 S1 bm).2.2.tt ≠ []
      rw [hg1b]
      exact iter_loop_tt bt phash vms hsub rest g S1 bm hinv hov
        ⟨m, hm, hmleg⟩ hnw (Or.inr hSneb)

theorem get_best_move_fixed_tt (bt : Bot) (g : Game) (S : SearchState)
    (vms : List Int) (hsub : vms.Sublist canonical_cols) (hinv : Inv g)
    (hov : g.game_over = false)
    (hleg : ∃ m ∈ vms, get_next_open_row g m ≠ none)
    (hnw : ∀ m : Int, ¬((make_move g m).2.game_over = true ∧
      (make_move g m).2.winner = bt.player)) :
    (get_best_move_fixed bt g S vms).2.2.tt ≠ [] := by
  unfold get_best_move_fixed
  obtain ⟨r, heq, htt⟩ := root_loop_safe bt (bt.depth - 1)
    (compute_hash bt g) (order_moves S.tt vms (compute_hash bt g)) g S
    (-INF) none hinv hov hnw
  rw [heq]
  obtain ⟨m, hm, hmleg⟩ := hleg
  have hmem : m ∈ order_moves S.tt vms (compute_hash bt g) :=
    (order_moves_perm S.tt (compute_hash bt g) vms hsub).mem_iff.mpr hm
  have hSne : r.2.2.2.tt ≠ [] := htt (Or.inr ⟨m, hmem, hmleg⟩)
  rcases r with ⟨bv2, bm2, g1, S1⟩
  show S1.tt ≠ []
  exact hSne

theorem get_best_move_iterative_tt (bt : Bot) (g : Game) (S : SearchState)
    (vms : List Int) (hsub : vms.Sublist canonical_cols) (hinv : Inv g)
    (hov : g.game_over = false)
    (hleg : ∃ m ∈ vms, get_next_open_row g m ≠ none)
    (hnw : ∀ m : Int, ¬((make_move g m).2.game_over = true ∧
      (make_move g m).2.winner = bt.player))
    (hd : 1 ≤ bt.depth) :
    (get_best_move_iterative bt g S vms).2.2.tt ≠ [] := by
  unfold get_best_move_iterative
  obtain ⟨n, hn⟩ : ∃ n, bt.depth = n + 1 :=
    ⟨bt.depth - 1, (Nat.succ_pred_eq_of_pos hd).symm⟩
  rw [hn, List.range'_succ]
  exact iter_loop_tt bt (compute_hash bt g) vms hsub _ g S none hinv hov
    hleg hnw (Or.inl (List.cons_ne_nil _ _))

/-- C9 counterexample: with iterative search, configured depth 2, on the
non-terminal position after 3-0-3-0-3-0 (column 3 wins at once for the
side to move), `get_best_move` returns on the early immediate-win path
before any table store, so the search ends with an empty transposition
table despite depth 2 and seven legal moves. -/
theorem c9_counterexample :
    2 ≤ (zero_bot Player.RED 2 "iterative").depth ∧
    (play init_game [3, 0, 3, 0, 3, 0]).game_over = false ∧
    get_valid_moves (play init_game [3, 0, 3, 0, 3, 0]) ≠ [] ∧
    (get_best_move (zero_bot Player.RED 2 "iterative")
      (play init_game [3, 0, 3, 0, 3, 0]) ⟨[], [], []⟩).1 = some 3 ∧
    (get_best_move (zero_bot Player.RED 2 "iterative")
      (play init_game [3, 0, 3, 0, 3, 0]) ⟨[], [], []⟩).2.2.tt = [] := by
  decide

/-- C9 (amended): a `get_best_move` call on a non-terminal position with a
legal move ignores the caches it is handed — the search starts from
cleared tables — and, when the configured depth is at least 2 and no legal
move wins on the spot for the bot, the search ends with a nonempty
transposition table (if some root move wins immediately the call returns
before any store and the table stays empty). -/
theorem c9_transposition_table (bt : Bot) (g : Game) (S : SearchState)
    (hr : Reachable g) (hov : g.game_over = false)
    (hvne : get_valid_moves g ≠ []) (hd : 2 ≤ bt.depth)
    (hnowin : ∀ m ∈ get_valid_moves g,
      ¬((make_move g m).2.game_over = true ∧
        (make_move g m).2.winner = bt.player)) :
    get_best_move bt g S = get_best_move bt g ⟨[], [], []⟩ ∧
    (get_best_move bt g S).2.2.tt ≠ [] := by
  have hinv : Inv g := reachable_inv g hr
  have hgo : ¬(g.game_over = true) := by
    rw [hov]
    exact Bool.false_ne_true
  have hsub : (get_valid_moves g).Sublist canonical_cols :=
    get_valid_moves_sublist g
  have hnw : ∀ m : Int, ¬((make_move g m).2.game_over = true ∧
      (make_move g m).2.winner = bt.player) := by
    intro m hw
    rcases hrow : get_next_open_row g m with _ | row
    · have he := make_move_noop g m hrow
      rw [he, hov] at hw
      exact Bool.false_ne_true hw.1
    · exact hnowin m (mem_valid_of_row g m row hrow) hw
  have hleg : ∃ m ∈ get_valid_moves g, get_next_open_row g m ≠ none := by
    rcases hvm0 : get_valid_moves g with _ | ⟨m, rest⟩
    · exact absurd hvm0 hvne
    · have hmv : m ∈ get_valid_moves g := by
        rw [hvm0]
        exact List.mem_cons_self m rest
      have hval : is_valid_move g m = true := (List.mem_filter.mp hmv).2
      obtain ⟨row, hrow⟩ := valid_open_row g m hval
      refine ⟨m, List.mem_cons_self m rest, ?_⟩
      rw [hrow]
      exact fun hc => nomatch hc
  constructor
  · unfold get_best_move
    rw [if_neg hgo, if_neg hgo, if_neg hvne, if_neg hvne]
  · unfold get_best_move
    rw [if_neg hgo, if_neg hvne]
    by_cases hst : bt.search_type = "iterative"
    · rw [if_pos hst]
      exact get_best_move_iterative_tt bt g ⟨[], [], []⟩
        (get_valid_moves g) hsub hinv hov hleg hnw
        (Nat.le_trans (by decide) hd)
    · rw [if_neg hst]
      exact get_best_move_fixed_tt bt g ⟨[], [], []⟩ (get_valid_moves g)
        hsub hinv hov hleg hnw

/-- C9 witness: a depth-2 fixed search from the opening position (where no
move wins immediately) discards a junk table entry it was handed and ends
with a nonempty transposition table. -/
theorem c9_witness :
    get_best_move (zero_bot Player.RED 2 "fixed") init_game
        ⟨[(0, ⟨0, 0, BoundType.EXACT, none⟩)], [], []⟩ =
      get_best_move (zero_bot Player.RED 2 "fixed") init_game
        ⟨[], [], []⟩ ∧
    (get_best_move (zero_bot Player.RED 2 "fixed") init_game
      ⟨[(0, ⟨0, 0, BoundType.EXACT, none⟩)], [], []⟩).2.2.tt ≠ [] :=
  c9_transposition_table (zero_bot Player.RED 2 "fixed") init_game
    ⟨[(0, ⟨0, 0, BoundType.EXACT, none⟩)], [], []⟩ Reachable.init
    (by decide) (by decide) (by decide) (by decide)

/-! ## Immediate-win detection at the root (C1) -/

/-- If some listed legal move on the current position wins at once for the
bot, the root loop returns `Sum.inl` of a move that wins at once. -/
theorem root_loop_wins (bt : Bot) (sdepth phash : Nat) :
    ∀ (moves : List Int) (g : Game) (S : SearchState) (bv : Int)
      (bm : Option Int), Inv g → g.game_over = false →
      (∃ m ∈ moves, get_next_open_row g m ≠ none ∧
        (make_move g m).2.game_over = true ∧
        (make_move g m).2.winner = bt.player) →
      ∃ r, root_loop bt sdepth phash moves g S bv bm = Sum.inl r ∧
        (make_move g r.1).2.game_over = true ∧
        (make_move g r.1).2.winner = bt.player
  | [], g, S, bv, bm, hinv, hov, hex => by
    obtain ⟨m, hm, _⟩ := hex
    exact absurd hm (List.not_mem_nil m)
  | move :: rest, g, S, bv, bm, hinv, hov, hex => by
    simp only [root_loop]
    obtain ⟨m, hm, hmleg, hw1, hw2⟩ := hex
    rcases hrowE : get_next_open_row g move with _ | row
    · have hmne : m ≠ move := by
        intro e
        rw [e] at hmleg
        exact hmleg hrowE
      have hmr : m ∈ rest := by
        rcases List.mem_cons.mp hm with e | h
        · exact absurd e hmne
        · exact h
      exact root_loop_wins bt sdepth phash rest g S bv bm hinv hov
        ⟨m, hmr, hmleg, hw1, hw2⟩
    · show ∃ r, (if (make_move g move).2.game_over = true ∧
            (make_move g move).2.winner = bt.player then
          Sum.inl (move, (undo_move (make_move g move).2).2, S)
        else
          match minimax_with_hash bt sdepth (make_move g move).2 S false
              (-INF) INF
              (update_hash_for_move bt phash row move.toNat Player.NONE
                bt.player bt.player bt.opponent) with
          | (value, g2, S2) =>
            if bv < value then
              root_loop bt sdepth phash rest (undo_move g2).2 S2 value
                (some move)
            else
              root_loop bt sdepth phash rest (undo_move g2).2 S2 bv bm)
          = Sum.inl r ∧
        (make_move g r.1).2.game_over = true ∧
        (make_move g r.1).2.winner = bt.player
      by_cases hwin : (make_move g move).2.game_over = true ∧
          (make_move g move).2.winner = bt.player
      · rw [if_pos hwin]
        exact ⟨(move, (undo_move (make_move g move).2).2, S), rfl,
          hwin.1, hwin.2⟩
      · rw [if_neg hwin]
        have hmne : m ≠ move := by
          intro e
          rw [e] at hw1 hw2
          exact hwin ⟨hw1, hw2⟩
        have hmr : m ∈ rest := by
          rcases List.mem_cons.mp hm with e | h
          · exact absurd e hmne
          · exact h
        have hinv1 : Inv (make_move g move).2 := inv_make g move hinv
        have hundo : (undo_move (make_move g move).2).2 = g :=
          undo_after_make g move row hinv hov hrowE
        rcases hres : minimax_with_hash bt sdepth (make_move g move).2 S
            false (-INF) INF
            (update_hash_for_move bt phash row move.toNat Player.NONE
              bt.player bt.player bt.opponent) with ⟨value, g2, S2⟩
        have hg2 : g2 = (make_move g move).2 := by
          have h2 := minimax_game bt sdepth (make_move g move).2 S false
            (-INF) INF
            (update_hash_for_move bt phash row move.toNat Player.NONE
              bt.player bt.player bt.opponent) hinv1
          rw [hres] at h2
          exact h2
        have hundo2 : (undo_move g2).2 = g := by
          rw [hg2]
          exact hundo
        show ∃ r, (if bv < value then
            root_loop bt sdepth phash rest (undo_move g2).2 S2 value
              (some move)
          else root_loop bt sdepth phash rest (undo_move g2).2 S2 bv bm)
            = Sum.inl r ∧
          (make_move g r.1).2.game_over = true ∧
          (make_move g r.1).2.winner = bt.player
        rw [hundo2]
        by_cases hbv : bv < value
        · rw [if_pos hbv]
          exact root_loop_wins bt sdepth phash rest g S2 value (some move)
            hinv hov ⟨m, hmr, hmleg, hw1, hw2⟩
        · rw [if_neg hbv]
          exact root_loop_wins bt sdepth phash rest g S2 bv bm hinv hov
            ⟨m, hmr, hmleg, hw1, hw2⟩

theorem iter_loop_wins (bt : Bot) (phash : Nat) (vms : List Int)
    (cd : Nat) (rest : List Nat) (g : Game) (S : SearchState)
    (bm : Option Int) (hinv : Inv g) (hov : g.game_over = false)
    (hex : ∃ m ∈ order_moves S.tt vms phash, get_next_open_row g m ≠ none ∧
      (make_move g m).2.game_over = true ∧
      (make_move g m).2.winner = bt.player) :
    ∃ w, (iter_loop bt phash vms (cd :: rest) g S bm).1 = some w ∧
      (make_move g w).2.game_over = true ∧
      (make_move g w).2.winner = bt.player := by
  simp only [iter_loop]
  obtain ⟨r, heq, hw1, hw2⟩ := root_loop_wins bt (cd - 1) phash
    (order_moves S.tt vms phash) g S (-INF) none hinv hov hex
  rw [heq]
  exact ⟨r.1, rfl, hw1, hw2⟩

theorem get_best_move_fixed_wins (bt : Bot) (g : Game) (S : SearchState)
    (vms : List Int) (hinv : Inv g) (hov : g.game_over = false)
    (hex : ∃ m ∈ order_moves S.tt vms (compute_hash bt g),
      get_next_open_row g m ≠ none ∧
      (make_move g m).2.game_over = true ∧
      (make_move g m).2.winner = bt.player) :
    ∃ w, (get_best_move_fixed bt g S vms).1 = some w ∧
      (make_move g w).2.game_over = true ∧
      (make_move g w).2.winner = bt.player := by
  unfold get_best_move_fixed
  obtain ⟨r, heq, hw1, hw2⟩ := root_loop_wins bt (bt.depth - 1)
    (compute_hash bt g) (order_moves S.tt vms (compute_hash bt g)) g S
    (-INF) none hinv hov hex
  rw [heq]
  exact ⟨r.1, rfl, hw1, hw2⟩

/-- C1 counterexample: in iterative mode with configured depth 0 the
deepening loop `range(1, depth + 1)` makes no passes, so `get_best_move`
returns `None` on a position where dropping in column 0 wins at once for
the bot's side to move (fixed mode would return the win). -/
theorem c1_counterexample :
    (play init_game [0, 1, 0, 1, 0, 1]).game_over = false ∧
    (play init_game [0, 1, 0, 1, 0, 1]).current_player =
      (zero_bot Player.RED 0 "iterative").player ∧
    (0 : Int) ∈ get_valid_moves (play init_game [0, 1, 0, 1, 0, 1]) ∧
    (make_move (play init_game [0, 1, 0, 1, 0, 1]) 0).2.game_over = true ∧
    (make_move (play init_game [0, 1, 0, 1, 0, 1]) 0).2.winner =
      (zero_bot Player.RED 0 "iterative").player ∧
    (get_best_move (zero_bot Player.RED 0 "iterative")
      (play init_game [0, 1, 0, 1, 0, 1]) ⟨[], [], []⟩).1 = none := by
  decide

/-- C1 (amended): on a reachable non-terminal position where the bot's
configured player is to move, some legal column wins immediately, and the
configured depth is at least 1, `get_best_move` returns a column whose
application immediately wins for the bot — in both search modes.  (With
depth 0 the iterative mode makes no deepening passes and returns `None`,
so the depth bound is required there.) -/
theorem c1_immediate_win (bt : Bot) (g : Game) (S : SearchState)
    (hr : Reachable g) (hov : g.game_over = false)
    (hcp : g.current_player = bt.player) (hd : 1 ≤ bt.depth) (c : Int)
    (hc : c ∈ get_valid_moves g)
    (hw1 : (make_move g c).2.game_over = true)
    (hw2 : (make_move g c).2.winner = bt.player) :
    ∃ w, (get_best_move bt g S).1 = some w ∧
      (make_move g w).2.game_over = true ∧
      (make_move g w).2.winner = bt.player := by
  have hinv : Inv g := reachable_inv g hr
  have hgo : ¬(g.game_over = true) := by
    rw [hov]
    exact Bool.false_ne_true
  have hvne : get_valid_moves g ≠ [] := by
    intro h
    rw [h] at hc
    exact List.not_mem_nil c hc
  have hcleg : get_next_open_row g c ≠ none := by
    have hval : is_valid_move g c = true := (List.mem_filter.mp hc).2
    obtain ⟨row, hrow⟩ := valid_open_row g c hval
    rw [hrow]
    exact fun hcon => nomatch hcon
  have hsub : (get_valid_moves g).Sublist canonical_cols :=
    get_valid_moves_sublist g
  unfold get_best_move
  rw [if_neg hgo, if_neg hvne]
  by_cases hst : bt.search_type = "iterative"
  · rw [if_pos hst]
    unfold get_best_move_iterative
    obtain ⟨n, hn⟩ : ∃ n, bt.depth = n + 1 :=
      ⟨bt.depth - 1, (Nat.succ_pred_eq_of_pos hd).symm⟩
    rw [hn, List.range'_succ]
    exact iter_loop_wins bt (compute_hash bt g) (get_valid_moves g) 1
      (List.range' (1 + 1) n) g ⟨[], [], []⟩ none hinv hov
      ⟨c, (order_moves_perm _ _ _ hsub).mem_iff.mpr hc, hcleg, hw1, hw2⟩
  · rw [if_neg hst]
    exact get_best_move_fixed_wins bt g ⟨[], [], []⟩ (get_valid_moves g)
      hinv hov
      ⟨c, (order_moves_perm _ _ _ hsub).mem_iff.mpr hc, hcleg, hw1, hw2⟩

/-- C1 witness: a depth-1 iterative bot facing three own pieces in
column 0 returns an immediately winning column. -/
theorem c1_witness :
    ∃ w, (get_best_move (zero_bot Player.RED 1 "iterative")
        (play init_game [0, 1, 0, 1, 0, 1]) ⟨[], [], []⟩).1 = some w ∧
      (make_move (play init_game [0, 1, 0, 1, 0, 1]) w).2.game_over =
        true ∧
      (make_move (play init_game [0, 1, 0, 1, 0, 1]) w).2.winner =
        (zero_bot Player.RED 1 "iterative").player :=
  c1_immediate_win (zero_bot Player.RED 1 "iterative")
    (play init_game [0, 1, 0, 1, 0, 1]) ⟨[], [], []⟩
    (reachable_play init_game Reachable.init [0, 1, 0, 1, 0, 1])
    (by decide) (by decide) (by decide) 0 (by decide) (by decide)
    (by decide)

end Connect4
